import Mathlib

/-!
The package `reghive`: path resolution, key creation, value synchronisation,
the registry of open sessions, and the decoders of `types.go`.

A shallow embedding of `reghive.go`, `types.go`, `newbcddevice.go` and
`errors.go`.  The package sits on two collaborators that are not part of the
repository:

* the node store `go-hivex`, reached through `rh.Hive`; it is taken as a
  parameter `hx : Hivex σ` whose state `σ` is threaded explicitly, and every
  call made through a session is recorded in the ghost field `Reghive.Calls`;
  its functions for opening and closing a hive are the parameter
  `ho : HivexHandle σ`;
* the byte buffer `crunchio.Buffer` embedded in `Value`; it is taken as a
  parameter `cr : Crunchio β`.

Go strings are modelled by `String`, `[]byte` by `List Nat`, `int64` node and
value handles by `Int`, `*Reghive` pointers by positions in a heap, and
`(T, error)` results by `Except GoError T`.  The Unicode case table behind
`strings.ToLower` is the parameter `lower : Char → Char`.
-/

namespace reghive

/-! ## Errors (`errors.go`) -/

/-- A Go `error` value: a constant of the package's `Error` string type, a
failure handed up by one of the two collaborators, or an error made on the spot
with `fmt.Errorf`. -/
inductive GoError where
  | Error (msg : String)
  | hivex (errno : Nat)
  | crunchio (msg : String)
  | fmt (msg : String)
  deriving DecidableEq, Repr

def ERROR_NO_CHILD : GoError := .Error "reghive: Child node does not exist"
def ERROR_EXISTS_CHILD : GoError := .Error "reghive: Child node already exists"
def ERROR_ROOT_MAKE : GoError := .Error "reghive: Cannot remake root node"
def ERROR_ROOT_DELETE : GoError := .Error "reghive: Cannot delete root node"
def ERROR_VALUE_TYPE : GoError := .Error "reghive: Unknown value type"
def ERROR_SEEK_WHENCE : GoError := .Error "reghive: Invalid whence for seek"
def ERROR_PARENT_ROOT : GoError :=
  .Error "reghive: Parent not found, trying to GetParent() on root?"
def ERROR_CHILD_MISSING : GoError := .Error "reghive: Failed to find the requested child"
def ERROR_VALUE_MISSING : GoError := .Error "reghive: Failed to find the requested value"
def ERROR_BCDDEVICE_HEADER_SIZE : GoError :=
  .Error "reghive: BCD device must have header size of 0x10 (16)"

/-! ## Registry value types (`types.go`) -/

/-- Go `type RegValueType int64`. -/
abbrev RegValueType := Int

def RegNone : RegValueType := 0
def RegSZ : RegValueType := 1
def RegExpandSZ : RegValueType := 2
def RegBinary : RegValueType := 3
def RegDwordLittle : RegValueType := 4
def RegDwordBig : RegValueType := 5
def RegLink : RegValueType := 6
def RegMultiSZ : RegValueType := 7
def RegResourceList : RegValueType := 8
def RegFullResourceDescriptor : RegValueType := 9
def RegResourceRequirementsList : RegValueType := 10
def RegQword : RegValueType := 11
def RegDevice : RegValueType := 0xE
def RegDescType : RegValueType := 0xF

/-! ## The Go standard library functions used by `PathSplit` -/

namespace strings

/-- The pieces of a rune sequence between occurrences of `sep`; a sequence
with `n` separators has `n + 1` pieces, some possibly empty. -/
def splitChars (sep : Char) : List Char → List (List Char)
  | [] => [[]]
  | c :: cs =>
    if c = sep then [] :: splitChars sep cs
    else match splitChars sep cs with
      | [] => [[c]]
      | seg :: segs => (c :: seg) :: segs

/-- Go `strings.Split(s, sep)` for a one-rune separator. -/
def Split (s : String) (sep : Char) : List String :=
  (splitChars sep s.data).map String.mk

/-- Go `strings.ToLower(s)`: the rune-wise image of `s` under the case table. -/
def ToLower (lower : Char → Char) (s : String) : String :=
  String.mk (s.data.map lower)

/-- Go `strings.Join(elems, sep)` for a one-rune separator. -/
def Join (elems : List String) (sep : Char) : String :=
  String.mk (List.intercalate [sep] (elems.map String.data))

end strings

/-! ## `PathSplit` -/

/-- The function `PathSplit` of `reghive.go`.  The two index expressions `keys[0]` and
`keys[len(keys)-1]` are written as checked accesses. -/
def PathSplit (lower : Char → Char) (key : String) : List String :=
  if key = "" ∨ key = "/" then []
  else
    let keys := strings.Split (strings.ToLower lower key) '/'
    let keys := if keys[0]? = some "" then keys.drop 1 else keys
    if keys[keys.length - 1]? = some "" then keys.take (keys.length - 1) else keys

/-! ## The node store interface (`go-hivex`) -/

/-- Go `hivex.HiveValue`: the (type, name, bytes) triple exchanged with the store. -/
structure HiveValue where
  Typ : Int
  Key : String
  Value : List Nat
  deriving DecidableEq, Repr

/-- One call made on the node store handle. -/
inductive Call where
  | Commit
  | NodeName (node : Int)
  | NodeParent (node : Int)
  | NodeChildren (node : Int)
  | NodeGetChild (node : Int) (name : String)
  | NodeAddChild (node : Int) (name : String)
  | NodeDeleteChild (node : Int)
  | NodeValues (node : Int)
  | NodeValueKey (value : Int)
  | NodeGetValue (node : Int) (name : String)
  | ValueValue (value : Int)
  | NodeSetValue (node : Int) (hv : HiveValue)
  | NodeSetValues (node : Int) (hvs : List HiveValue)
  deriving DecidableEq, Repr

/-- The methods of `*hivex.Hivex` that the package calls, over a store state
`σ`.  Reading methods return a result; writing methods also return the state
the store is left in, whether or not they succeed. -/
structure Hivex (σ : Type) where
  Commit : σ → Except GoError Int × σ
  NodeName : σ → Int → Except GoError String
  NodeParent : σ → Int → Except GoError Int
  NodeChildren : σ → Int → Except GoError (List Int)
  NodeGetChild : σ → Int → String → Except GoError Int
  NodeAddChild : σ → Int → String → Except GoError Int × σ
  NodeDeleteChild : σ → Int → Except GoError Int × σ
  NodeValues : σ → Int → Except GoError (List Int)
  NodeValueKey : σ → Int → Except GoError String
  NodeGetValue : σ → Int → String → Except GoError Int
  ValueValue : σ → Int → Except GoError (Int × List Nat)
  NodeSetValue : σ → Int → HiveValue → Except GoError Int × σ
  NodeSetValues : σ → Int → List HiveValue → Except GoError Int × σ

/-! ## Sessions and keys -/

/-- Go `type Key struct`: the node handle; the session pointer of the Go struct is
the session argument passed alongside. -/
structure Key where
  Node : Int
  deriving DecidableEq, Repr

/-- Go `type Reghive struct`, with the ghost field `Calls` listing, oldest first,
the node store calls issued through the session. -/
structure Reghive (σ : Type) where
  Hive : σ
  Path : String
  Root : Key
  Calls : List Call

/-- The outcome of a method: its Go result and the session afterwards. -/
abbrev Res (σ α : Type) := Except GoError α × Reghive σ

variable {σ β : Type}

/-- A reading call on the store: logged, state untouched. -/
def Reghive.read {α : Type} (rh : Reghive σ) (c : Call) (r : Except GoError α) : Res σ α :=
  (r, { rh with Calls := rh.Calls ++ [c] })

/-- A writing call on the store: logged, state replaced by what the store returns. -/
def Reghive.write {α : Type} (rh : Reghive σ) (c : Call) (r : Except GoError α × σ) :
    Res σ α :=
  (r.1, { rh with Hive := r.2, Calls := rh.Calls ++ [c] })

/-- Go `func (rh *Reghive) sync() error`. -/
def Reghive.sync (hx : Hivex σ) (rh : Reghive σ) : Res σ Unit :=
  match rh.write .Commit (hx.Commit rh.Hive) with
  | (.error err, rh) => (.error err, rh)
  | (.ok _, rh) => (.ok (), rh)

/-- Go `func (rh *Reghive) DecodeKey(node int64) (*Key, error)`. -/
def Reghive.DecodeKey (node : Int) : Except GoError Key :=
  .ok { Node := node }

/-- Go `func (k *Key) GetName() (string, error)`. -/
def Key.GetName (hx : Hivex σ) (rh : Reghive σ) (k : Key) : Res σ String :=
  rh.read (.NodeName k.Node) (hx.NodeName rh.Hive k.Node)

/-- Go `func (k *Key) GetParent() (*Key, error)`. -/
def Key.GetParent (hx : Hivex σ) (rh : Reghive σ) (k : Key) : Res σ Key :=
  match rh.read (.NodeParent k.Node) (hx.NodeParent rh.Hive k.Node) with
  | (.error err, rh) => (.error err, rh)
  | (.ok parent, rh) => (Reghive.DecodeKey parent, rh)

/-- Go `func (k *Key) GetChild(name string) (*Key, error)`. -/
def Key.GetChild (hx : Hivex σ) (rh : Reghive σ) (k : Key) (name : String) : Res σ Key :=
  match rh.read (.NodeGetChild k.Node name) (hx.NodeGetChild rh.Hive k.Node name) with
  | (.error err, rh) => (.error err, rh)
  | (.ok node, rh) =>
    if node = 0 then (.error ERROR_CHILD_MISSING, rh)
    else (Reghive.DecodeKey node, rh)

/-- Go `func (k *Key) MakeChild(name string) (*Key, error)`. -/
def Key.MakeChild (hx : Hivex σ) (rh : Reghive σ) (k : Key) (name : String) : Res σ Key :=
  match rh.write (.NodeAddChild k.Node name) (hx.NodeAddChild rh.Hive k.Node name) with
  | (.error err, rh) => (.error err, rh)
  | (.ok node, rh) =>
    match rh.sync hx with
    | (.error err, rh) => (.error err, rh)
    | (.ok _, rh) => (Reghive.DecodeKey node, rh)

/-- Go `func (k *Key) DeleteChild(name string) error`. -/
def Key.DeleteChild (hx : Hivex σ) (rh : Reghive σ) (k : Key) (name : String) : Res σ Unit :=
  match rh.read (.NodeGetChild k.Node name) (hx.NodeGetChild rh.Hive k.Node name) with
  | (.error err, rh) => (.error err, rh)
  | (.ok node, rh) =>
    match rh.write (.NodeDeleteChild node) (hx.NodeDeleteChild rh.Hive node) with
    | (.error err, rh) => (.error err, rh)
    | (.ok _, rh) => rh.sync hx

/-- The loop of `GetKey`: `keys` is what is left of the path, `key` the key
reached so far. -/
def Reghive.GetKey.walk (hx : Hivex σ) : Reghive σ → Key → List String → Res σ Key
  | rh, key, [] => (.ok key, rh)
  | rh, key, s :: rest =>
    match key.GetChild hx rh s with
    | (.error err, rh) => (.error err, rh)
    | (.ok child, rh) => Reghive.GetKey.walk hx rh child rest

/-- Go `func (rh *Reghive) GetKey(name string) (*Key, error)`. -/
def Reghive.GetKey (hx : Hivex σ) (lower : Char → Char) (rh : Reghive σ) (name : String) :
    Res σ Key :=
  let keys := PathSplit lower name
  if keys.length ≤ 0 then (.ok rh.Root, rh)
  else Reghive.GetKey.walk hx rh rh.Root keys

/-- The first loop of `MakeKey`, entered at index `i` with `keys[i:]` left to
visit: each iteration first stores `i` in `new`, then looks the segment up and
breaks on failure.  Returns `key`, `new` and the session at loop exit. -/
def Reghive.MakeKey.walk (hx : Hivex σ) :
    Reghive σ → Key → Nat → Nat → List String → Key × Nat × Reghive σ
  | rh, key, new, _, [] => (key, new, rh)
  | rh, key, _, i, s :: rest =>
    match key.GetChild hx rh s with
    | (.error _, rh) => (key, i, rh)
    | (.ok child, rh) => Reghive.MakeKey.walk hx rh child i (i + 1) rest

/-- The second loop of `MakeKey` over `keys[new:]`. -/
def Reghive.MakeKey.create (hx : Hivex σ) : Reghive σ → Key → List String → Res σ Key
  | rh, key, [] => (.ok key, rh)
  | rh, key, s :: rest =>
    match key.MakeChild hx rh s with
    | (.error err, rh) => (.error err, rh)
    | (.ok child, rh) => Reghive.MakeKey.create hx rh child rest

/-- Go `func (rh *Reghive) MakeKey(name string) (*Key, error)`. -/
def Reghive.MakeKey (hx : Hivex σ) (lower : Char → Char) (rh : Reghive σ) (name : String) :
    Res σ Key :=
  let keys := PathSplit lower name
  if keys.length ≤ 0 then (.error ERROR_ROOT_MAKE, rh)
  else
    match Reghive.MakeKey.walk hx rh rh.Root 0 0 keys with
    | (key, new, rh) => Reghive.MakeKey.create hx rh key (keys.drop new)

/-- Go `func (rh *Reghive) DeleteKey(name string) error`. -/
def Reghive.DeleteKey (hx : Hivex σ) (lower : Char → Char) (rh : Reghive σ) (name : String) :
    Res σ Unit :=
  match rh.GetKey hx lower name with
  | (.error err, rh) => (.error err, rh)
  | (.ok key, rh) =>
    match key.GetName hx rh with
    | (.error err, rh) => (.error err, rh)
    | (.ok keyName, rh) =>
      match key.GetParent hx rh with
      | (.error err, rh) => (.error err, rh)
      | (.ok parent, rh) =>
        match parent.DeleteChild hx rh keyName with
        | (.error err, rh) => (.error err, rh)
        | (.ok _, rh) => rh.sync hx

/-! ## `DeleteValue` -/

/-- The search loop of `DeleteValue`: `index` starts at `-1` and becomes the
first position `i` with `values[i] == node`; the argument counts the positions
already passed. -/
def Key.DeleteValue.index (node : Int) : List Int → Nat → Int
  | [], _ => -1
  | v :: rest, i => if v = node then (i : Int) else Key.DeleteValue.index node rest (i + 1)

/-- The list handed to the read loop: `append(values[:index], values[index+1:]...)`
when `index > -1`, the list itself otherwise. -/
def Key.DeleteValue.remaining (node : Int) (values : List Int) : List Int :=
  let index := Key.DeleteValue.index node values 0
  if index > -1 then values.take index.toNat ++ values.drop (index.toNat + 1) else values

/-- The read loop of `DeleteValue`: for each remaining value handle, its name and
then its type and bytes are read back and packed into a `HiveValue`. -/
def Key.DeleteValue.collect (hx : Hivex σ) :
    Reghive σ → List Int → Res σ (List HiveValue)
  | rh, [] => (.ok [], rh)
  | rh, v :: rest =>
    match rh.read (.NodeValueKey v) (hx.NodeValueKey rh.Hive v) with
    | (.error err, rh) => (.error err, rh)
    | (.ok valueKey, rh) =>
      match rh.read (.ValueValue v) (hx.ValueValue rh.Hive v) with
      | (.error err, rh) => (.error err, rh)
      | (.ok (valType, valBytes), rh) =>
        match Key.DeleteValue.collect hx rh rest with
        | (.error err, rh) => (.error err, rh)
        | (.ok hvs, rh) =>
          (.ok ({ Typ := valType, Key := valueKey, Value := valBytes } :: hvs), rh)

/-- Go `func (k *Key) DeleteValue(name string) error`. -/
def Key.DeleteValue (hx : Hivex σ) (rh : Reghive σ) (k : Key) (name : String) : Res σ Unit :=
  match rh.read (.NodeGetValue k.Node name) (hx.NodeGetValue rh.Hive k.Node name) with
  | (.error err, rh) => (.error err, rh)
  | (.ok node, rh) =>
    match rh.read (.NodeValues k.Node) (hx.NodeValues rh.Hive k.Node) with
    | (.error err, rh) => (.error err, rh)
    | (.ok values, rh) =>
      match Key.DeleteValue.collect hx rh (Key.DeleteValue.remaining node values) with
      | (.error err, rh) => (.error err, rh)
      | (.ok hiveValues, rh) =>
        match rh.write (.NodeSetValues k.Node hiveValues)
            (hx.NodeSetValues rh.Hive k.Node hiveValues) with
        | (.error err, rh) => (.error err, rh)
        | (.ok _, rh) => rh.sync hx

/-! ## Values -/

/-- The dynamic type and content of the `interface{}` argument of `SetValue`.
Fixed-width integers carry their value, floats their IEEE-754 bit pattern. -/
inductive Data where
  | BCDDevice (header : List Nat)
  | BCDDescType (source : List Nat)
  | byte (b : Nat)
  | bool (b : Bool)
  | int (i : Int)
  | uint (n : Nat)
  | bytes (b : List Nat)
  | string (s : String)
  | strings (ss : List String)
  | int16 (i : Int)
  | int32 (i : Int)
  | uint16 (n : Nat)
  | uint32 (n : Nat)
  | int64 (i : Int)
  | uint64 (n : Nat)
  | float32 (bits : Nat)
  | float64 (bits : Nat)
  | other (typeName : String)
  deriving DecidableEq, Repr

/-- The methods of `*crunchio.Buffer` that `Value` uses, over a buffer state `β`. -/
structure Crunchio (β : Type) where
  NewBuffer : β
  Bytes : β → List Nat
  Write : β → List Nat → β
  WriteAbstract : β → Data → Except GoError Unit × β

/-- Go `type Value struct`: the embedded buffer, the owning key, name, type tag and
the `ready` flag. -/
structure Value (β : Type) where
  Buffer : β
  Key : Key
  Name : String
  Typ : RegValueType
  ready : Bool

/-- The outcome of a `Value` method: its Go result, the receiver afterwards and
the session afterwards. -/
abbrev VRes (σ β α : Type) := Except GoError α × Value β × Reghive σ

/-- Go `func newValue(k *Key) *Value`. -/
def newValue (cr : Crunchio β) (k : Key) : Value β :=
  { Buffer := cr.NewBuffer, Key := k, Name := "", Typ := RegNone, ready := false }

/-- Go `func (v *Value) hiveValue() hivex.HiveValue`. -/
def Value.hiveValue (cr : Crunchio β) (v : Value β) : HiveValue :=
  let hv : HiveValue := { Typ := v.Typ, Key := v.Name, Value := cr.Bytes v.Buffer }
  if hv.Value.length = 0 then { hv with Value := [0], Typ := RegNone } else hv

/-- Go `func (v *Value) sync() error`. -/
def Value.sync (hx : Hivex σ) (cr : Crunchio β) (rh : Reghive σ) (v : Value β) : Res σ Unit :=
  if !v.ready then (.ok (), rh)
  else
    let hv := v.hiveValue cr
    match rh.write (.NodeSetValue v.Key.Node hv) (hx.NodeSetValue rh.Hive v.Key.Node hv) with
    | (.error err, rh) => (.error err, rh)
    | (.ok _, rh) => rh.sync hx

/-- Go `func (v *Value) SetType(valType RegValueType) error`. -/
def Value.SetType (hx : Hivex σ) (cr : Crunchio β) (rh : Reghive σ) (v : Value β)
    (valType : RegValueType) : VRes σ β Unit :=
  let v := { v with Typ := valType }
  match v.sync hx cr rh with
  | (r, rh) => (r, v, rh)

/-- Go `func (v *Value) SetName(name string) error`. -/
def Value.SetName (hx : Hivex σ) (cr : Crunchio β) (rh : Reghive σ) (v : Value β)
    (name : String) : VRes σ β Unit :=
  let name := if name = "@" then "" else name
  let v := { v with Name := name }
  match v.sync hx cr rh with
  | (r, rh) => (r, v, rh)

/-- Go `func (v *Value) SetValue(data interface{}) error`.  The session is an
argument only so that the three setters have one signature: the body never
reaches it, since `WriteAbstract` is a method of the embedded buffer. -/
def Value.SetValue (_hx : Hivex σ) (cr : Crunchio β) (rh : Reghive σ) (v : Value β)
    (data : Data) : VRes σ β Unit :=
  match data with
  | .BCDDevice _ => (.error ERROR_VALUE_TYPE, v, rh)
  | .BCDDescType _ => (.error ERROR_VALUE_TYPE, v, rh)
  | data =>
    match cr.WriteAbstract v.Buffer data with
    | (r, buf) => (r, { v with Buffer := buf }, rh)

/-- Go `func (rh *Reghive) DecodeValue(node, value int64) (*Value, error)`. -/
def Reghive.DecodeValue (hx : Hivex σ) (cr : Crunchio β) (rh : Reghive σ)
    (node value : Int) : Res σ (Value β) :=
  match Reghive.DecodeKey node with
  | .error err => (.error err, rh)
  | .ok k =>
    let v := newValue cr k
    match rh.read (.NodeValueKey value) (hx.NodeValueKey rh.Hive value) with
    | (.error err, rh) => (.error err, rh)
    | (.ok valueKey, rh) =>
      let valueKey := if valueKey = "" then "@" else valueKey
      let v := { v with Name := valueKey }
      match rh.read (.ValueValue value) (hx.ValueValue rh.Hive value) with
      | (.error err, rh) => (.error err, rh)
      | (.ok (valueType, valueBytes), rh) =>
        let v := { v with Typ := valueType }
        let v := { v with Buffer := cr.Write v.Buffer valueBytes }
        let v := { v with ready := true }
        (.ok v, rh)

/-- Go `func (k *Key) GetValue(name string) (*Value, error)`. -/
def Key.GetValue (hx : Hivex σ) (cr : Crunchio β) (rh : Reghive σ) (k : Key)
    (name : String) : Res σ (Value β) :=
  let name := if name = "@" then "" else name
  match rh.read (.NodeGetValue k.Node name) (hx.NodeGetValue rh.Hive k.Node name) with
  | (.error err, rh) => (.error err, rh)
  | (.ok node, rh) => rh.DecodeValue hx cr k.Node node

/-- Go `func (k *Key) MakeValue(name string) (*Value, error)`. -/
def Key.MakeValue (hx : Hivex σ) (cr : Crunchio β) (rh : Reghive σ) (k : Key)
    (name : String) : Res σ (Value β) :=
  let v := newValue cr k
  match v.SetName hx cr rh name with
  | (_, v, rh) =>
    let v := { v with ready := true }
    match v.sync hx cr rh with
    | (.error err, rh) => (.error err, rh)
    | (.ok _, rh) => k.GetValue hx cr rh name

/-! ## A reference node store and byte buffer

Concrete instances of the two collaborator interfaces, used to run the package
on explicit hives. -/

/-- Modelled from the spec: a stored value of the node store collaborator (§6),
a value handle together with its (type, name, bytes) triple. -/
structure MemValue where
  id : Int
  hv : HiveValue
  deriving DecidableEq, Repr

/-- Modelled from the spec: a node of the node store collaborator (§6), with its
handle, the handle of its parent, its name and its values in store order. -/
structure MemNode where
  id : Int
  parent : Int
  name : String
  values : List MemValue
  deriving DecidableEq, Repr

/-- Modelled from the spec: the state of the node store collaborator (§6), the
root handle and the nodes in creation order. -/
structure MemHive where
  root : Int
  nodes : List MemNode
  deriving DecidableEq, Repr

namespace MemHive

def ENOENT : GoError := .hivex 2
def EEXIST : GoError := .hivex 17
def EINVAL : GoError := .hivex 22

/-- Case-insensitive name comparison of the store. -/
def sameName (a b : String) : Bool :=
  strings.ToLower Char.toLower a = strings.ToLower Char.toLower b

/-- An upper bound on the magnitude of every handle in use. -/
def bound (st : MemHive) : Nat :=
  st.nodes.foldr
    (fun nd m =>
      max (max nd.id.natAbs nd.parent.natAbs)
        (max (nd.values.foldr (fun v m => max v.id.natAbs m) 0) m))
    0

/-- A handle that is non-zero and not in use. -/
def fresh (st : MemHive) : Int := ((st.bound + 1 : Nat) : Int)

def node? (st : MemHive) (n : Int) : Option MemNode :=
  st.nodes.find? (fun nd => nd.id = n)

/-- The first node below `n` with the given name; handle 0 is the "absent"
sentinel and never names a node. -/
def child? (st : MemHive) (n : Int) (name : String) : Option MemNode :=
  st.nodes.find? (fun nd => nd.id ≠ 0 ∧ nd.parent = n ∧ sameName nd.name name)

def value? (st : MemHive) (v : Int) : Option MemValue :=
  (st.nodes.flatMap (fun nd => nd.values)).find? (fun mv => mv.id = v)

/-- Whether node `id` is `target` or lies below it, following at most `fuel`
parent links. -/
def under (nodes : List MemNode) (target : Int) : Nat → Int → Bool
  | 0, id => id = target
  | fuel + 1, id =>
    id = target ||
      match nodes.find? (fun nd => nd.id = id) with
      | some nd => under nodes target fuel nd.parent
      | none => false

def setNodeValues (st : MemHive) (n : Int) (vals : List MemValue) : MemHive :=
  { st with nodes := st.nodes.map (fun nd => if nd.id = n then { nd with values := vals } else nd) }

/-- The value list after an upsert: the first value of the same name is
replaced in place, otherwise the new value goes last. -/
def upsert (mv : MemValue) : List MemValue → List MemValue
  | [] => [mv]
  | old :: rest => if sameName old.hv.Key mv.hv.Key then mv :: rest else old :: upsert mv rest

def Commit (st : MemHive) : Except GoError Int × MemHive := (.ok 0, st)

def NodeName (st : MemHive) (n : Int) : Except GoError String :=
  match st.node? n with
  | some nd => .ok nd.name
  | none => .error EINVAL

def NodeParent (st : MemHive) (n : Int) : Except GoError Int :=
  if n = st.root then .error EINVAL
  else match st.node? n with
    | some nd => .ok nd.parent
    | none => .error EINVAL

def NodeChildren (st : MemHive) (n : Int) : Except GoError (List Int) :=
  match st.node? n with
  | some _ => .ok ((st.nodes.filter (fun nd => nd.parent = n)).map (fun nd => nd.id))
  | none => .error EINVAL

def NodeGetChild (st : MemHive) (n : Int) (name : String) : Except GoError Int :=
  match st.node? n with
  | none => .error EINVAL
  | some _ =>
    match st.child? n name with
    | some c => .ok c.id
    | none => .ok 0

def NodeAddChild (st : MemHive) (n : Int) (name : String) : Except GoError Int × MemHive :=
  match st.node? n with
  | none => (.error EINVAL, st)
  | some _ =>
    match st.child? n name with
    | some _ => (.error EEXIST, st)
    | none =>
      (.ok st.fresh,
        { st with nodes := st.nodes ++ [{ id := st.fresh, parent := n, name := name, values := [] }] })

def NodeDeleteChild (st : MemHive) (n : Int) : Except GoError Int × MemHive :=
  if n = st.root then (.error EINVAL, st)
  else match st.node? n with
    | none => (.error EINVAL, st)
    | some _ =>
      (.ok 0, { st with nodes := st.nodes.filter (fun nd => !under st.nodes n st.nodes.length nd.id) })

def NodeValues (st : MemHive) (n : Int) : Except GoError (List Int) :=
  match st.node? n with
  | some nd => .ok (nd.values.map (fun mv => mv.id))
  | none => .error EINVAL

def NodeValueKey (st : MemHive) (v : Int) : Except GoError String :=
  match st.value? v with
  | some mv => .ok mv.hv.Key
  | none => .error EINVAL

def NodeGetValue (st : MemHive) (n : Int) (name : String) : Except GoError Int :=
  match st.node? n with
  | none => .error EINVAL
  | some nd =>
    match nd.values.find? (fun mv => sameName mv.hv.Key name) with
    | some mv => .ok mv.id
    | none => .error ENOENT

def ValueValue (st : MemHive) (v : Int) : Except GoError (Int × List Nat) :=
  match st.value? v with
  | some mv => .ok (mv.hv.Typ, mv.hv.Value)
  | none => .error EINVAL

def NodeSetValue (st : MemHive) (n : Int) (hv : HiveValue) : Except GoError Int × MemHive :=
  match st.node? n with
  | none => (.error EINVAL, st)
  | some nd => (.ok 0, st.setNodeValues n (upsert { id := st.fresh, hv := hv } nd.values))

def NodeSetValues (st : MemHive) (n : Int) (hvs : List HiveValue) :
    Except GoError Int × MemHive :=
  match st.node? n with
  | none => (.error EINVAL, st)
  | some _ =>
    (.ok 0, st.setNodeValues n (hvs.enum.map (fun p => { id := st.fresh + (p.1 : Int), hv := p.2 })))

end MemHive

/-- Modelled from the spec: the node store collaborator of §6 as an in-memory
tree, with case-insensitive child and value lookup, the 0 sentinel for an
absent child, no parent for the root and fresh handles for what it creates. -/
def memHivex : Hivex MemHive where
  Commit := MemHive.Commit
  NodeName := MemHive.NodeName
  NodeParent := MemHive.NodeParent
  NodeChildren := MemHive.NodeChildren
  NodeGetChild := MemHive.NodeGetChild
  NodeAddChild := MemHive.NodeAddChild
  NodeDeleteChild := MemHive.NodeDeleteChild
  NodeValues := MemHive.NodeValues
  NodeValueKey := MemHive.NodeValueKey
  NodeGetValue := MemHive.NodeGetValue
  ValueValue := MemHive.ValueValue
  NodeSetValue := MemHive.NodeSetValue
  NodeSetValues := MemHive.NodeSetValues

/-- The `w` low-order bytes of `n`, least significant first. -/
def leBytes (w n : Nat) : List Nat :=
  (List.range w).map (fun i => n / 256 ^ i % 256)

/-- The UTF-8 bytes of a string. -/
def utf8Bytes (s : String) : List Nat :=
  s.data.flatMap (fun c => (String.utf8EncodeChar c).map UInt8.toNat)

/-- Modelled from the spec: the typed write of the byte-buffer collaborator
(§4.1, §6): integers little-endian on 32 or 64 bits, booleans and single bytes
promoted to 32 bits, raw bytes and float bit patterns as they are, strings as
their UTF-8 bytes; anything else is an error. -/
def memEncode : Data → Except GoError (List Nat)
  | .byte b => .ok (leBytes 4 b)
  | .bool b => .ok (leBytes 4 (if b then 1 else 0))
  | .int i => .ok (leBytes 4 (i % 2 ^ 32).toNat)
  | .uint n => .ok (leBytes 4 n)
  | .bytes b => .ok b
  | .string s => .ok (utf8Bytes s)
  | .int16 i => .ok (leBytes 4 (i % 2 ^ 32).toNat)
  | .int32 i => .ok (leBytes 4 (i % 2 ^ 32).toNat)
  | .uint16 n => .ok (leBytes 4 n)
  | .uint32 n => .ok (leBytes 4 n)
  | .int64 i => .ok (leBytes 8 (i % 2 ^ 64).toNat)
  | .uint64 n => .ok (leBytes 8 n)
  | .float32 bits => .ok (leBytes 4 bits)
  | .float64 bits => .ok (leBytes 8 bits)
  | _ => .error (.crunchio "unsupported type")

/-- Modelled from the spec: the byte-buffer collaborator of §6 as a growable
byte list with sequential write and whole-buffer read. -/
def memBuffer : Crunchio (List Nat) where
  NewBuffer := []
  Bytes := fun b => b
  Write := fun b p => b ++ p
  WriteAbstract := fun b d =>
    match memEncode d with
    | .ok p => (.ok (), b ++ p)
    | .error err => (.error err, b)

/-- An empty hive: a root node with handle 1, without children or values. -/
def emptyHive : MemHive :=
  { root := 1, nodes := [{ id := 1, parent := 0, name := "", values := [] }] }

/-- A fresh session on a store state, with nothing logged yet. -/
def session (st : MemHive) : Reghive MemHive :=
  { Hive := st, Path := "hive", Root := { Node := st.root }, Calls := [] }

/-- The hive left by making the key `/foo` in the empty hive. -/
def fooHive : MemHive :=
  { root := 1,
    nodes := [{ id := 1, parent := 0, name := "", values := [] },
              { id := 2, parent := 1, name := "foo", values := [] }] }

/-- A hive whose key `/foo` holds the string values `bar = "x"` and `baz = "y"`. -/
def barBazHive : MemHive :=
  { root := 1,
    nodes := [{ id := 1, parent := 0, name := "", values := [] },
              { id := 2, parent := 1, name := "foo",
                values := [{ id := 3, hv := { Typ := RegSZ, Key := "bar", Value := [120] } },
                           { id := 4, hv := { Typ := RegSZ, Key := "baz", Value := [121] } }] }] }

/-- The steps of `main` in `example/main.go` that touch a value: make the key
`/foo/`, make the value `bar`, set it to `"asdf"`, then get the key and the
value again; any error is fatal.  Returns the value handle after `SetValue`
and the value read back at the end. -/
def exampleMain (hx : Hivex σ) (cr : Crunchio β) (lower : Char → Char) (rh : Reghive σ) :
    Res σ (Value β × Value β) :=
  match rh.MakeKey hx lower "/foo/" with
  | (.error err, rh) => (.error err, rh)
  | (.ok keyChild, rh) =>
    match keyChild.MakeValue hx cr rh "bar" with
    | (.error err, rh) => (.error err, rh)
    | (.ok val, rh) =>
      match val.SetValue hx cr rh (.string "asdf") with
      | (.error err, _, rh) => (.error err, rh)
      | (.ok _, val, rh) =>
        match rh.GetKey hx lower "/foo/" with
        | (.error err, rh) => (.error err, rh)
        | (.ok keyChild, rh) =>
          match keyChild.GetValue hx cr rh "bar" with
          | (.error err, rh) => (.error err, rh)
          | (.ok val2, rh) => (.ok (val, val2), rh)

/-! ## Vocabulary for stating what a walk finds and what a run issues -/

/-- Whether, in store state `st`, the segments `segs` resolve one after the
other, starting below node `n`, to the non-zero handles `nodes`. -/
def resolves (hx : Hivex σ) (st : σ) : Int → List String → List Int → Bool
  | _, [], [] => true
  | n, s :: segs, c :: cs =>
    (match hx.NodeGetChild st n s with
      | .ok found => decide (found = c) && decide (c ≠ 0)
      | .error _ => false) && resolves hx st c segs cs
  | _, _, _ => false

/-- The lookups of a walk from node `n` through `nodes`: segment `i` is looked
up below the node reached by segment `i - 1`. -/
def lookupCalls (n : Int) (nodes : List Int) (segs : List String) : List Call :=
  List.zipWith Call.NodeGetChild (n :: nodes) segs

/-- The calls of a creation run below node `n`: segment `i` is added below the
node created for segment `i - 1`, each addition followed by a commit. -/
def createCalls (n : Int) (created : List Int) (segs : List String) : List Call :=
  (List.zipWith (fun p s => [Call.NodeAddChild p s, Call.Commit]) (n :: created) segs).flatten

/-- Whether a call is one of the four reads `DeleteValue` makes. -/
def Call.isRead : Call → Bool
  | .NodeGetValue _ _ => true
  | .NodeValues _ => true
  | .NodeValueKey _ => true
  | .ValueValue _ => true
  | _ => false

/-- Whether a call is a bulk replace of a key's values. -/
def Call.isReplace : Call → Bool
  | .NodeSetValues _ _ => true
  | _ => false

/-- Whether a call hands a value to the store or commits. -/
def Call.isPush : Call → Bool
  | .NodeSetValue _ _ => true
  | .NodeSetValues _ _ => true
  | .Commit => true
  | _ => false

/-- A successful creation run: from state `st`, adding `segs` one below the
other, starting below node `n`, with a commit after each addition, returns the
handles `created` and ends in state `st'`. -/
def Hivex.CreateRun (hx : Hivex σ) : σ → Int → List String → List Int → σ → Prop
  | st, _, [], [], st' => st' = st
  | st, n, s :: segs, c :: cs, st' =>
    ∃ st1 r st2, hx.NodeAddChild st n s = (.ok c, st1) ∧ hx.Commit st1 = (.ok r, st2) ∧
      Hivex.CreateRun hx st2 c segs cs st'
  | _, _, _, _, _ => False

/-- A working node store, as far as key creation is concerned: commits succeed
and do not change what lookups find; a child can be added where a lookup
reports the 0 sentinel; a child just added is found under its name, has a
non-zero handle and no children yet; and an addition does not disturb the
children found before. -/
structure Hivex.Lawful (hx : Hivex σ) : Prop where
  commit_ok : ∀ st, ∃ r st', hx.Commit st = (.ok r, st') ∧
    ∀ p nm, hx.NodeGetChild st' p nm = hx.NodeGetChild st p nm
  add_ok : ∀ st p nm, hx.NodeGetChild st p nm = .ok 0 →
    ∃ c st', hx.NodeAddChild st p nm = (.ok c, st')
  add_get : ∀ st p nm c st', hx.NodeAddChild st p nm = (.ok c, st') →
    c ≠ 0 ∧ hx.NodeGetChild st' p nm = .ok c
  add_new : ∀ st p nm c st', hx.NodeAddChild st p nm = (.ok c, st') →
    ∀ nm', hx.NodeGetChild st' c nm' = .ok 0
  add_keep : ∀ st p nm c st', hx.NodeAddChild st p nm = (.ok c, st') →
    ∀ p' nm' c', c' ≠ 0 → hx.NodeGetChild st p' nm' = .ok c' →
      hx.NodeGetChild st' p' nm' = .ok c'


/-- Whether a call is a single-value upsert. -/
def Call.isUpsert : Call → Bool
  | .NodeSetValue _ _ => true
  | _ => false

/-! ## BCD descriptors (`types.go`, `newbcddevice.go`) -/

def maskObject : Nat := 0xF0000000
def maskImage : Nat := 0x00F00000
def maskApplication : Nat := 0x000FFFFF

/-- Go `type ObjectType int`. -/
abbrev ObjectType := Int

/-- Go `type ImageType int`. -/
abbrev ImageType := Int

/-- Go `type InheritType int`. -/
abbrev InheritType := Int

/-- Go `type ApplicationType int`. -/
abbrev ApplicationType := Int

/-- Go `type BCDDescType struct`. -/
structure BCDDescType where
  Source : List Nat
  ObjectType : ObjectType
  ImageType : ImageType
  InheritType : InheritType
  ApplicationType : ApplicationType
  deriving DecidableEq, Repr

/-- Go `binary.Read(bytes.NewReader(descType), binary.LittleEndian, &typeDWORD)`
with its error dropped, as `NewBCDDescType` calls it: the first four bytes read
as a little-endian `uint32`; when fewer than four bytes are there the read
fails and `typeDWORD` keeps its zero value. -/
def readDWORD : List Nat → Nat
  | b0 :: b1 :: b2 :: b3 :: _ =>
    (b0 % 256 + b1 % 256 * 2 ^ 8 + b2 % 256 * 2 ^ 16 + b3 % 256 * 2 ^ 24) % 2 ^ 32
  | _ => 0

/-- Go `func NewBCDDescType(descType []byte) *BCDDescType`. -/
def NewBCDDescType (descType : List Nat) : BCDDescType :=
  let typeDWORD := readDWORD descType
  let objectType : ObjectType := (((typeDWORD &&& maskObject) >>> 28 : Nat) : Int)
  let imageType : ImageType := (((typeDWORD &&& maskImage) >>> 20 : Nat) : Int)
  let inheritType : InheritType := (((typeDWORD &&& maskImage) >>> 20 : Nat) : Int)
  let applicationType : ApplicationType := ((typeDWORD &&& maskApplication : Nat) : Int)
  { Source := descType, ObjectType := objectType, ImageType := imageType,
    InheritType := inheritType, ApplicationType := applicationType }

/-- Go `type ABCDDevice struct`: the embedded buffer. -/
structure ABCDDevice (β : Type) where
  Buffer : β

/-- Go `func NewBCDDevice(b []byte) (*ABCDDevice, error)`; the call
`crunchio.NewBuffer(b)` of the variadic constructor on one slice is the
parameter `newBuffer`. -/
def NewBCDDevice (newBuffer : List Nat → β) (b : List Nat) : Except GoError (ABCDDevice β) :=
  if b.length ≠ 16 then .error ERROR_BCDDEVICE_HEADER_SIZE
  else
    let dev : ABCDDevice β := { Buffer := newBuffer b }
    .ok dev

/-! ## `DecodeUTF16` (`types.go`) -/

/-- The first loop of `DecodeUTF16` with `n` iterations to go: the next one is
at index `i = 2 * (n - 1)` and cuts `b` to `b[:i]` when the two bytes at `i`
and `i + 1` are zero; then `i` goes down by two. -/
def DecodeUTF16.trim : Nat → List Nat → List Nat
  | 0, b => b
  | n + 1, b =>
    let i := 2 * n
    DecodeUTF16.trim n (if b[i]? = some 0 ∧ b[i + 1]? = some 0 then b.take i else b)

/-- The code unit `uint16(b0) + (uint16(b1) << 8)` of two bytes. -/
def DecodeUTF16.unit (b0 b1 : Nat) : Nat :=
  (b0 % 2 ^ 16 + b1 % 2 ^ 16 * 2 ^ 8 % 2 ^ 16) % 2 ^ 16

/-- Go `utf16.Decode` on a slice of one code unit, followed by
`utf8.EncodeRune`: a unit outside the surrogate range is its own rune, a lone
surrogate becomes U+FFFD. -/
def DecodeUTF16.rune (u : Nat) : Char :=
  if u < 0xD800 ∨ 0xE000 ≤ u then Char.ofNat u else Char.ofNat 0xFFFD

/-- The second loop of `DecodeUTF16`: two bytes at a time, each code unit is
decoded on its own and its rune appended to the result. -/
def DecodeUTF16.decode : List Nat → List Char
  | b0 :: b1 :: rest => DecodeUTF16.rune (DecodeUTF16.unit b0 b1) :: DecodeUTF16.decode rest
  | _ => []

/-- Go `func DecodeUTF16(b []byte) (string, error)`. -/
def DecodeUTF16 (b : List Nat) : Except GoError String :=
  if b.length % 2 ≠ 0 then .error (.fmt "Must have even length byte slice")
  else
    let b := DecodeUTF16.trim (b.length / 2) b
    if b.length = 0 then .ok ""
    else .ok (String.mk (DecodeUTF16.decode b))

/-- The byte pairs of a byte sequence, in order. -/
def DecodeUTF16.pairs : List Nat → List (Nat × Nat)
  | b0 :: b1 :: rest => (b0, b1) :: DecodeUTF16.pairs rest
  | _ => []

/-- The byte sequence of a list of byte pairs. -/
def DecodeUTF16.flat (us : List (Nat × Nat)) : List Nat :=
  us.flatMap (fun p => [p.1, p.2])

/-- Whether a byte pair is the code unit `0x0000`. -/
def DecodeUTF16.isNull (p : Nat × Nat) : Bool :=
  p.1 = 0 ∧ p.2 = 0

/-- The text of a list of byte pairs, each decoded on its own. -/
def DecodeUTF16.text (us : List (Nat × Nat)) : String :=
  String.mk (us.map (fun p => DecodeUTF16.rune (DecodeUTF16.unit p.1 p.2)))

/-- The decoding in the words of the specification: the trailing `0x0000` code
units are removed and every remaining code unit is decoded in order. -/
def DecodeUTF16.stripTrailing (b : List Nat) : String :=
  DecodeUTF16.text ((DecodeUTF16.pairs b).rdropWhile DecodeUTF16.isNull)

/-- What the first loop leaves: the code units before the first `0x0000`. -/
def DecodeUTF16.cutAtNull (b : List Nat) : String :=
  DecodeUTF16.text ((DecodeUTF16.pairs b).takeWhile (fun p => !DecodeUTF16.isNull p))

/-- The function `PathSplit` with its two index expressions checked as Go checks
them at run time: `none` stands for the panic of an index out of range. -/
def PathSplit.checked (lower : Char → Char) (key : String) : Option (List String) :=
  if key = "" ∨ key = "/" then some []
  else
    let keys := strings.Split (strings.ToLower lower key) '/'
    if h0 : 0 < keys.length then
      let keys := if keys[0] = "" then keys.drop 1 else keys
      if h1 : keys.length - 1 < keys.length then
        some (if keys[keys.length - 1] = "" then keys.take (keys.length - 1) else keys)
      else none
    else none

/-! ## The registry of open sessions: `Open` and `Close` -/

/-- The functions of `go-hivex` used by `Open` and `Close`: `hivex.NewHivex(path,
hivex.WRITE)`, `hive.Root()` and `hive.Close()`, over a store state `σ`.  What
opening a path gives is taken as fixed during a run. -/
structure HivexHandle (σ : Type) where
  NewHivex : String → Except GoError σ
  Root : σ → Except GoError Int
  Close : σ → Option GoError

/-- A `Reghive` struct as it lives behind a `*Reghive` pointer, where `Close`
sets the `Hive` and `Root` pointers to nil. -/
structure Session (σ : Type) where
  Hive : Option σ
  Path : String
  Root : Option Key

/-- The state of the process as far as the registry goes: the `Reghive` structs
allocated so far (a `*Reghive` pointer is a position in `heap`), the package
variable `hives`, and the ghost list `opened` of the paths handed to
`hivex.NewHivex`. -/
structure Process (σ : Type) where
  heap : List (Session σ)
  hives : List Nat
  opened : List String

/-- The state at program start: nothing allocated, `hives` nil. -/
def Process.init : Process σ :=
  { heap := [], hives := [], opened := [] }

/-- The path read through a pointer, `hives[i].Path`. -/
def Process.pathOf (p : Process σ) (ptr : Nat) : Option String :=
  (p.heap[ptr]?).map (fun s => s.Path)

/-- The loop of `Open`: the first registered pointer whose struct has the path. -/
def Open.find (heap : List (Session σ)) (path : String) : List Nat → Option Nat
  | [] => none
  | ptr :: rest =>
    if (heap[ptr]?).map (fun s => s.Path) = some path then some ptr
    else Open.find heap path rest

/-- Go `func Open(path string) (*Reghive, error)`. -/
def Open (ho : HivexHandle σ) (p : Process σ) (path : String) :
    Except GoError Nat × Process σ :=
  match Open.find p.heap path p.hives with
  | some ptr => (.ok ptr, p)
  | none =>
    let p := { p with opened := p.opened ++ [path] }
    match ho.NewHivex path with
    | .error err => (.error err, p)
    | .ok hive =>
      match ho.Root hive with
      | .error err => (.error err, p)
      | .ok root =>
        let rh := p.heap.length
        let fresh : Session σ := { Hive := some hive, Path := path, Root := none }
        let p := { p with heap := p.heap ++ [fresh] }
        match Reghive.DecodeKey root with
        | .error err => (.error err, p)
        | .ok key =>
          let opened : Session σ := { Hive := some hive, Path := path, Root := some key }
          let p := { p with heap := p.heap.set rh opened }
          (.ok rh, { p with hives := p.hives ++ [rh] })

/-- The search loop of `Close`: `index` starts at `-1` and becomes the first
position `i` with `hives[i].Path == path`. -/
def Close.index (heap : List (Session σ)) (path : String) : List Nat → Nat → Int
  | [], _ => -1
  | ptr :: rest, i =>
    if (heap[ptr]?).map (fun s => s.Path) = some path then (i : Int)
    else Close.index heap path rest (i + 1)

/-- Go `func (rh *Reghive) Close() error`; `none` stands for the nil pointer
dereference of closing a session whose `Hive` is already nil. -/
def Close (ho : HivexHandle σ) (p : Process σ) (rh : Nat) :
    Option (Except GoError Unit × Process σ) :=
  match p.heap[rh]? with
  | none => none
  | some s =>
    let path := s.Path
    match s.Hive with
    | none => none
    | some hive =>
      match ho.Close hive with
      | some err => some (.error err, p)
      | none =>
        let closed : Session σ := { Hive := none, Path := "", Root := none }
        let p := { p with heap := p.heap.set rh closed }
        if p.hives.length > 0 then
          let index := Close.index p.heap path p.hives 0
          if index > -1 then
            some (.ok (),
              { p with hives := p.hives.take index.toNat ++ p.hives.drop (index.toNat + 1) })
          else some (.ok (), p)
        else some (.ok (), p)

/-- The registry invariant: every registered pointer is allocated and no two
registered sessions have the same path. -/
def Process.OnePerPath (p : Process σ) : Prop :=
  (∀ ptr ∈ p.hives, ptr < p.heap.length) ∧ (p.hives.map p.pathOf).Nodup

/-- The state after calling `Open` on each of the paths in turn. -/
def Process.opens (ho : HivexHandle σ) : Process σ → List String → Process σ
  | p, [] => p
  | p, path :: rest => Process.opens ho (Open ho p path).2 rest

/-- Modelled from the spec: the node store collaborator of §6 for opening and
closing, where every path opens an empty hive and closing always succeeds. -/
def memHandle : HivexHandle MemHive where
  NewHivex := fun _ => .ok emptyHive
  Root := fun st => .ok st.root
  Close := fun _ => none

/-! ## UTF-16LE encoding, for the round trip through `DecodeUTF16` -/

theorem strings.splitChars_ne_nil (sep : Char) (cs : List Char) :
    strings.splitChars sep cs ≠ [] := by
  induction cs with
  | nil => simp [strings.splitChars]
  | cons c cs ih =>
    unfold strings.splitChars
    split
    · simp
    · split <;> simp

theorem strings.splitChars_free (sep : Char) (seg : List Char) (h : sep ∉ seg) :
    strings.splitChars sep seg = [seg] := by
  induction seg with
  | nil => simp [strings.splitChars]
  | cons c cs ih =>
    have hc : c ≠ sep := fun e => h (by simp [e])
    have hcs : sep ∉ cs := fun e => h (by simp [e])
    simp [strings.splitChars, hc, ih hcs]

theorem strings.splitChars_append (sep : Char) (seg rest : List Char) (h : sep ∉ seg) :
    strings.splitChars sep (seg ++ sep :: rest) = seg :: strings.splitChars sep rest := by
  induction seg with
  | nil => simp [strings.splitChars]
  | cons c cs ih =>
    have hc : c ≠ sep := fun e => h (by simp [e])
    have hcs : sep ∉ cs := fun e => h (by simp [e])
    simp [strings.splitChars, hc, ih hcs]

theorem strings.splitChars_intercalate (sep : Char) (segs : List (List Char))
    (hne : segs ≠ []) (h : ∀ s ∈ segs, sep ∉ s) :
    strings.splitChars sep (List.intercalate [sep] segs) = segs := by
  induction segs with
  | nil => exact absurd rfl hne
  | cons s rest ih =>
    cases rest with
    | nil =>
      simpa [List.intercalate] using strings.splitChars_free sep s (h s (by simp))
    | cons t rest =>
      have hrest : strings.splitChars sep (List.intercalate [sep] (t :: rest)) = t :: rest :=
        ih (by simp) (fun u hu => h u (by simp [hu]))
      have : List.intercalate [sep] (s :: t :: rest)
          = s ++ sep :: List.intercalate [sep] (t :: rest) := by
        simp [List.intercalate, List.intersperse]
      rw [this, strings.splitChars_append sep s _ (h s (by simp)), hrest]

theorem strings.splitChars_snoc (sep : Char) (cs : List Char) :
    strings.splitChars sep (cs ++ [sep]) = strings.splitChars sep cs ++ [[]] := by
  induction cs with
  | nil => simp [strings.splitChars]
  | cons c cs ih =>
    by_cases hc : c = sep
    · simp [strings.splitChars, hc, ← ih]
    · have hne := strings.splitChars_ne_nil sep cs
      cases hsp : strings.splitChars sep cs with
      | nil => exact absurd hsp hne
      | cons seg segs =>
        simp [strings.splitChars, hc, ih, hsp]

/-- The value of `PathSplit` on a path other than `""` and `"/"`, in terms of the head and
the last element of the split list. -/
theorem PathSplit_of_split (lower : Char → Char) (key : String)
    (hk : ¬(key = "" ∨ key = "/")) (keys : List String)
    (hs : strings.Split (strings.ToLower lower key) '/' = keys) :
    PathSplit lower key =
      if (if keys.head? = some "" then keys.tail else keys).getLast? = some ""
      then (if keys.head? = some "" then keys.tail else keys).dropLast
      else (if keys.head? = some "" then keys.tail else keys) := by
  unfold PathSplit
  rw [if_neg hk]
  simp only [hs, ← List.head?_eq_getElem?, ← List.getLast?_eq_getElem?, List.drop_one,
    ← List.dropLast_eq_take]

theorem strings.data_ne_nil {s : String} (h : s ≠ "") : s.data ≠ [] := by
  intro e
  apply h
  exact String.ext e

/-! ## `PathSplit` -/

theorem strings.intercalate_cons_cons (sep : Char) (s t : List Char) (rest : List (List Char)) :
    List.intercalate [sep] (s :: t :: rest) = s ++ sep :: List.intercalate [sep] (t :: rest) := by
  simp [List.intercalate, List.intersperse]

theorem strings.map_intercalate_fixed (f : Char → Char) (sep : Char) (hsep : f sep = sep)
    (segs : List (List Char)) (h : ∀ s ∈ segs, s.map f = s) :
    (List.intercalate [sep] segs).map f = List.intercalate [sep] segs := by
  induction segs with
  | nil => simp [List.intercalate]
  | cons s rest ih =>
    cases rest with
    | nil => simpa [List.intercalate] using h s (by simp)
    | cons t rest =>
      rw [strings.intercalate_cons_cons, List.map_append, List.map_cons, hsep,
        h s (by simp), ih (fun u hu => h u (by simp [hu]))]

theorem strings.intercalate_ne_nil (sep : Char) (segs : List (List Char))
    (h : ∀ s ∈ segs, s ≠ []) (hne : segs ≠ []) : List.intercalate [sep] segs ≠ [] := by
  cases segs with
  | nil => exact absurd rfl hne
  | cons s rest =>
    cases rest with
    | nil => simpa [List.intercalate] using h s (by simp)
    | cons t rest =>
      rw [strings.intercalate_cons_cons]
      have := h s (by simp)
      simp [this]

theorem strings.map_mk_data (segs : List String) :
    (segs.map String.data).map String.mk = segs := by
  induction segs with
  | nil => rfl
  | cons s rest ih => simp only [List.map_cons, ih]

theorem strings.map_mk_comp_data (segs : List String) :
    segs.map (String.mk ∘ String.data) = segs := by
  rw [← List.map_map]; exact strings.map_mk_data segs

/-- C4: `PathSplit("")` and `PathSplit("/")` are empty, and for a non-empty list
of segments, each non-empty, lower-case and free of `'/'`, `PathSplit` returns
exactly the segments for the path joined by `'/'`, with or without one leading
and one trailing slash (the case table is assumed to fix `'/'`). -/
theorem PathSplit_spellings (lower : Char → Char) (hslash : lower '/' = '/')
    (segs : List String) (hne : segs ≠ [])
    (hseg : ∀ s ∈ segs, s ≠ "" ∧ strings.ToLower lower s = s ∧ '/' ∉ s.data) :
    PathSplit lower "" = [] ∧ PathSplit lower "/" = [] ∧
    PathSplit lower (strings.Join segs '/') = segs ∧
    PathSplit lower ("/" ++ strings.Join segs '/') = segs ∧
    PathSplit lower (strings.Join segs '/' ++ "/") = segs ∧
    PathSplit lower ("/" ++ strings.Join segs '/' ++ "/") = segs := by
  have hfree : ∀ s ∈ segs.map String.data, '/' ∉ s := by
    intro s hs
    obtain ⟨t, ht, rfl⟩ := List.mem_map.1 hs
    exact (hseg t ht).2.2
  have hfix : ∀ s ∈ segs.map String.data, s.map lower = s := by
    intro s hs
    obtain ⟨t, ht, rfl⟩ := List.mem_map.1 hs
    have := (hseg t ht).2.1
    exact congrArg String.data this
  have hnonempty : ∀ s ∈ segs.map String.data, s ≠ [] := by
    intro s hs
    obtain ⟨t, ht, rfl⟩ := List.mem_map.1 hs
    exact strings.data_ne_nil (hseg t ht).1
  have hneD : segs.map String.data ≠ [] := by simpa using hne
  have hJ := strings.map_intercalate_fixed lower '/' hslash _ hfix
  have hS := strings.splitChars_intercalate '/' _ hneD hfree
  have hJne := strings.intercalate_ne_nil '/' _ hnonempty hneD
  have hhead : segs.head? ≠ some "" := by
    cases segs with
    | nil => exact absurd rfl hne
    | cons s rest =>
      have := (hseg s (by simp)).1
      simpa using this
  have hlast : segs.getLast? ≠ some "" := by
    intro e
    have hm := List.mem_of_getLast?_eq_some e
    exact (hseg "" hm).1 rfl
  have hlast2 : (segs ++ [""]).getLast? = some "" := by simp
  have hdrop : (segs ++ [""]).dropLast = segs := by simp
  have hJ1 : List.intercalate ['/'] (segs.map String.data) ≠ ['/'] := by
    intro e
    rw [e] at hS
    have : ([] : List Char) ∈ segs.map String.data := by
      rw [← hS]; simp [strings.splitChars]
    exact hnonempty [] this rfl
  have e1 : "/" ++ strings.Join segs '/'
      = String.mk ('/' :: List.intercalate ['/'] (segs.map String.data)) := by
    apply String.ext; simp [strings.Join]
  have e2 : strings.Join segs '/' ++ "/"
      = String.mk (List.intercalate ['/'] (segs.map String.data) ++ ['/']) := by
    apply String.ext; simp [strings.Join]
  have e3 : "/" ++ strings.Join segs '/' ++ "/"
      = String.mk ('/' :: List.intercalate ['/'] (segs.map String.data) ++ ['/']) := by
    apply String.ext; simp [strings.Join]
  have hJs : strings.splitChars '/' (List.intercalate ['/'] (segs.map String.data) ++ ['/'])
      = segs.map String.data ++ [[]] := by
    rw [strings.splitChars_snoc, hS]
  refine ⟨by simp [PathSplit], by simp [PathSplit], ?_, ?_, ?_, ?_⟩
  · have hk : ¬(strings.Join segs '/' = "" ∨ strings.Join segs '/' = "/") := by
      simp only [strings.Join, String.ext_iff, not_or]
      exact ⟨hJne, hJ1⟩
    rw [PathSplit_of_split lower _ hk segs]
    · simp [hhead, hlast]
    · simp [strings.Split, strings.ToLower, strings.Join, hJ, hS, strings.map_mk_comp_data]
  · have hk : ¬("/" ++ strings.Join segs '/' = "" ∨ "/" ++ strings.Join segs '/' = "/") := by
      rw [e1]
      simp only [String.ext_iff, not_or]
      exact ⟨by simp, by simpa using hJne⟩
    rw [PathSplit_of_split lower _ hk ("" :: segs)]
    · simp [hlast]
    · rw [e1]
      simp [strings.Split, strings.ToLower, hJ, hS, hslash, strings.splitChars,
        strings.map_mk_comp_data]
  · have hk : ¬(strings.Join segs '/' ++ "/" = "" ∨ strings.Join segs '/' ++ "/" = "/") := by
      rw [e2]
      simp only [String.ext_iff, not_or]
      refine ⟨by simp, ?_⟩
      intro e
      have := congrArg List.length e
      simp at this
      exact hJne this
    rw [PathSplit_of_split lower _ hk (segs ++ [""])]
    · simp [hhead, hne]
    · rw [e2]
      simp [strings.Split, strings.ToLower, hJ, hJs, hslash, strings.map_mk_comp_data]
  · have hk : ¬("/" ++ strings.Join segs '/' ++ "/" = "" ∨
        "/" ++ strings.Join segs '/' ++ "/" = "/") := by
      rw [e3]
      simp only [String.ext_iff, not_or]
      exact ⟨by simp, by simp⟩
    rw [PathSplit_of_split lower _ hk ("" :: (segs ++ [""]))]
    · simp
    · rw [e3]
      simp [strings.Split, strings.ToLower, hJ, hJs, hslash, strings.splitChars,
        strings.map_mk_comp_data]

/-- The ASCII case table `Char.toLower` is idempotent. -/
theorem toLower_toLower (c : Char) : Char.toLower (Char.toLower c) = Char.toLower c := by
  by_cases h : 65 ≤ c.toNat ∧ c.toNat ≤ 90
  · obtain ⟨h1, h2⟩ := h
    have hc : c = Char.ofNat c.toNat := (Char.ofNat_toNat c).symm
    generalize c.toNat = n at h1 h2 hc
    subst hc
    interval_cases n <;> decide
  · have : Char.toLower c = c := by
      unfold Char.toLower
      simp only [ge_iff_le]
      rw [if_neg h]
    rw [this, this]

/-- C4 at the segments `foo`, `bar`: `"/foo/bar/"` splits to `["foo", "bar"]`. -/
theorem PathSplit_spellings_witness :
    PathSplit Char.toLower "/foo/bar/" = ["foo", "bar"] :=
  (PathSplit_spellings Char.toLower (by decide) ["foo", "bar"] (by decide) (by decide)).2.2.2.2.2

theorem strings.mem_of_mem_splitChars (sep : Char) (cs seg : List Char) (c : Char)
    (hseg : seg ∈ strings.splitChars sep cs) (hc : c ∈ seg) : c ∈ cs := by
  induction cs generalizing seg with
  | nil =>
    simp [strings.splitChars] at hseg
    subst hseg
    simp at hc
  | cons d ds ih =>
    by_cases hd : d = sep
    · simp only [strings.splitChars, hd, if_true, List.mem_cons] at hseg
      rcases hseg with h | h
      · subst h; simp at hc
      · exact List.mem_cons_of_mem _ (ih seg h hc)
    · cases hsp : strings.splitChars sep ds with
      | nil => exact absurd hsp (strings.splitChars_ne_nil sep ds)
      | cons s ss =>
        simp only [strings.splitChars, hd, if_false, hsp, List.mem_cons] at hseg
        rcases hseg with h | h
        · subst h
          rcases List.mem_cons.1 hc with h1 | h1
          · simp [h1]
          · exact List.mem_cons_of_mem _ (ih s (by simp [hsp]) h1)
        · exact List.mem_cons_of_mem _ (ih seg (by simp [hsp, h]) hc)

theorem strings.ToLower_idem (lower : Char → Char) (hidem : ∀ c, lower (lower c) = lower c)
    (p : String) : strings.ToLower lower (strings.ToLower lower p) = strings.ToLower lower p := by
  apply String.ext
  simp [strings.ToLower, hidem]

/-- C5: for a case table that fixes `'/'` and is idempotent, `PathSplit p` equals
`PathSplit` of the lower-cased `p`, two paths with the same lower-casing split
alike, and every returned segment is lower-case. -/
theorem PathSplit_case_insensitive (lower : Char → Char) (hslash : lower '/' = '/')
    (hidem : ∀ c, lower (lower c) = lower c) (p : String) :
    PathSplit lower p = PathSplit lower (strings.ToLower lower p) ∧
    (∀ q, strings.ToLower lower q = strings.ToLower lower p →
      PathSplit lower q = PathSplit lower p) ∧
    (∀ s ∈ PathSplit lower p, strings.ToLower lower s = s) := by
  have main : ∀ r : String, PathSplit lower r = PathSplit lower (strings.ToLower lower r) := by
    intro r
    by_cases h0 : r = ""
    · subst h0; simp [PathSplit, strings.ToLower]
    by_cases h1 : r = "/"
    · subst h1; simp [PathSplit, strings.ToLower, hslash]
    have hk : ¬(r = "" ∨ r = "/") := by simp [h0, h1]
    have h0' : strings.ToLower lower r ≠ "" := by
      intro e
      apply h0
      have := congrArg String.data e
      simp [strings.ToLower] at this
      exact String.ext this
    by_cases h1' : strings.ToLower lower r = "/"
    · rw [PathSplit_of_split lower r hk _ rfl, h1']
      simp [PathSplit, strings.Split, strings.splitChars]
    · have hk' : ¬(strings.ToLower lower r = "" ∨ strings.ToLower lower r = "/") := by
        simp [h0', h1']
      rw [PathSplit_of_split lower r hk _ rfl, PathSplit_of_split lower _ hk' _ rfl,
        strings.ToLower_idem lower hidem]
  refine ⟨main p, ?_, ?_⟩
  · intro q hq
    rw [main q, main p, hq]
  · intro s hs
    by_cases hk : p = "" ∨ p = "/"
    · simp [PathSplit, hk] at hs
    · rw [PathSplit_of_split lower p hk _ rfl] at hs
      have hmem1 : s ∈ (if (strings.Split (strings.ToLower lower p) '/').head? = some ""
          then (strings.Split (strings.ToLower lower p) '/').tail
          else strings.Split (strings.ToLower lower p) '/') := by
        by_cases hd : (if (strings.Split (strings.ToLower lower p) '/').head? = some ""
          then (strings.Split (strings.ToLower lower p) '/').tail
          else strings.Split (strings.ToLower lower p) '/').getLast? = some ""
        · rw [if_pos hd] at hs
          exact List.mem_of_mem_dropLast hs
        · rw [if_neg hd] at hs
          exact hs
      have hmem : s ∈ strings.Split (strings.ToLower lower p) '/' := by
        by_cases hc : (strings.Split (strings.ToLower lower p) '/').head? = some ""
        · rw [if_pos hc] at hmem1
          exact List.mem_of_mem_tail hmem1
        · rw [if_neg hc] at hmem1
          exact hmem1
      obtain ⟨seg, hseg, rfl⟩ := List.mem_map.1 hmem
      apply String.ext
      simp only [strings.ToLower]
      have hfix : List.map lower seg = List.map id seg := by
        apply List.map_congr_left
        intro c hc
        have := strings.mem_of_mem_splitChars '/' _ seg c hseg hc
        simp only [strings.ToLower, List.mem_map] at this
        obtain ⟨d, _, rfl⟩ := this
        exact hidem d
      simpa using hfix

/-- C5 at the ASCII case table: `"/Foo"` and `"/foo"` split alike, to `["foo"]`. -/
theorem PathSplit_case_insensitive_witness :
    PathSplit Char.toLower "/Foo" = PathSplit Char.toLower "/foo" ∧
    PathSplit Char.toLower "/foo" = ["foo"] :=
  ⟨(PathSplit_case_insensitive Char.toLower (by decide) toLower_toLower "/foo").2.1 "/Foo"
      (by decide), by decide⟩

/-! ## `GetKey` -/

theorem Key.GetChild_ok (hx : Hivex σ) (rh : Reghive σ) (k : Key) (s : String) (c : Int)
    (h : hx.NodeGetChild rh.Hive k.Node s = .ok c) (hc : c ≠ 0) :
    k.GetChild hx rh s
      = (.ok { Node := c }, { rh with Calls := rh.Calls ++ [.NodeGetChild k.Node s] }) := by
  simp [Key.GetChild, Reghive.read, h, hc, Reghive.DecodeKey]

theorem Key.GetChild_zero (hx : Hivex σ) (rh : Reghive σ) (k : Key) (s : String)
    (h : hx.NodeGetChild rh.Hive k.Node s = .ok 0) :
    k.GetChild hx rh s
      = (.error ERROR_CHILD_MISSING,
          { rh with Calls := rh.Calls ++ [.NodeGetChild k.Node s] }) := by
  simp [Key.GetChild, Reghive.read, h]

theorem Key.GetChild_error (hx : Hivex σ) (rh : Reghive σ) (k : Key) (s : String)
    (e : GoError) (h : hx.NodeGetChild rh.Hive k.Node s = .error e) :
    k.GetChild hx rh s
      = (.error e, { rh with Calls := rh.Calls ++ [.NodeGetChild k.Node s] }) := by
  simp [Key.GetChild, Reghive.read, h]

theorem resolves_cons (hx : Hivex σ) (st : σ) (n : Int) (s : String) (segs : List String)
    (nodes : List Int) (h : resolves hx st n (s :: segs) nodes = true) :
    ∃ c cs, nodes = c :: cs ∧ hx.NodeGetChild st n s = .ok c ∧ c ≠ 0 ∧
      resolves hx st c segs cs = true := by
  cases nodes with
  | nil => simp [resolves] at h
  | cons c cs =>
    refine ⟨c, cs, rfl, ?_⟩
    simp only [resolves, Bool.and_eq_true] at h
    obtain ⟨h1, h2⟩ := h
    cases hg : hx.NodeGetChild st n s with
    | error e => simp [hg] at h1
    | ok found =>
      simp [hg] at h1
      exact ⟨by rw [h1.1], h1.2, h2⟩

/-- The `GetKey` loop on segments that resolve: it continues behind them from
the last node found, having issued exactly their lookups. -/
theorem Reghive.GetKey.loop_resolves (hx : Hivex σ) (pre rest : List String) :
    ∀ (rh : Reghive σ) (key : Key) (nodes : List Int),
      resolves hx rh.Hive key.Node pre nodes = true →
      Reghive.GetKey.walk hx rh key (pre ++ rest)
        = Reghive.GetKey.walk hx
            { rh with Calls := rh.Calls ++ lookupCalls key.Node nodes pre }
            { Node := nodes.getLastD key.Node } rest := by
  induction pre with
  | nil =>
    intro rh key nodes h
    cases nodes with
    | nil => simp [lookupCalls]
    | cons c cs => simp [resolves] at h
  | cons s segs ih =>
    intro rh key nodes h
    obtain ⟨c, cs, rfl, hg, hc, hr⟩ := resolves_cons hx _ _ _ _ _ h
    simp only [List.cons_append, Reghive.GetKey.walk, Key.GetChild_ok hx rh key s c hg hc,
      List.append_eq]
    rw [ih { rh with Calls := rh.Calls ++ [.NodeGetChild key.Node s] } { Node := c } cs hr]
    simp only [lookupCalls, List.zipWith_cons_cons, List.append_assoc, List.singleton_append,
      List.getLastD_cons]


/-- The `GetKey` loop only reads: store state, path and root are as before, and
every call it adds to the log is a `NodeGetChild`. -/
theorem Reghive.GetKey.loop_frame (hx : Hivex σ) (segs : List String) :
    ∀ (rh : Reghive σ) (key : Key),
      (Reghive.GetKey.walk hx rh key segs).2.Hive = rh.Hive ∧
      (Reghive.GetKey.walk hx rh key segs).2.Path = rh.Path ∧
      (Reghive.GetKey.walk hx rh key segs).2.Root = rh.Root ∧
      ∃ calls, (Reghive.GetKey.walk hx rh key segs).2.Calls = rh.Calls ++ calls ∧
        ∀ c ∈ calls, ∃ n s, c = Call.NodeGetChild n s := by
  induction segs with
  | nil =>
    intro rh key
    exact ⟨rfl, rfl, rfl, [], by simp [Reghive.GetKey.walk], by simp⟩
  | cons s segs ih =>
    intro rh key
    cases hg : hx.NodeGetChild rh.Hive key.Node s with
    | error e =>
      have hw : Reghive.GetKey.walk hx rh key (s :: segs)
          = (.error e, { rh with Calls := rh.Calls ++ [.NodeGetChild key.Node s] }) := by
        simp only [Reghive.GetKey.walk, Key.GetChild_error hx rh key s e hg]
      rw [hw]
      exact ⟨rfl, rfl, rfl, [.NodeGetChild key.Node s], rfl, by simp⟩
    | ok c =>
      by_cases hc : c = 0
      · subst hc
        have hw : Reghive.GetKey.walk hx rh key (s :: segs)
            = (.error ERROR_CHILD_MISSING,
                { rh with Calls := rh.Calls ++ [.NodeGetChild key.Node s] }) := by
          simp only [Reghive.GetKey.walk, Key.GetChild_zero hx rh key s hg]
        rw [hw]
        exact ⟨rfl, rfl, rfl, [.NodeGetChild key.Node s], rfl, by simp⟩
      · have hw : Reghive.GetKey.walk hx rh key (s :: segs)
            = Reghive.GetKey.walk hx
                { rh with Calls := rh.Calls ++ [.NodeGetChild key.Node s] } { Node := c } segs := by
          simp only [Reghive.GetKey.walk, Key.GetChild_ok hx rh key s c hg hc]
        rw [hw]
        obtain ⟨h1, h2, h3, calls, h4, h5⟩ :=
          ih { rh with Calls := rh.Calls ++ [.NodeGetChild key.Node s] } { Node := c }
        refine ⟨h1, h2, h3, .NodeGetChild key.Node s :: calls, ?_, ?_⟩
        · rw [h4]; simp
        · intro d hd
          rcases List.mem_cons.1 hd with h | h
          · exact ⟨_, _, h⟩
          · exact h5 d h

theorem resolves_length (hx : Hivex σ) (st : σ) (segs : List String) :
    ∀ (n : Int) (nodes : List Int), resolves hx st n segs nodes = true →
      nodes.length = segs.length := by
  induction segs with
  | nil =>
    intro n nodes h
    cases nodes with
    | nil => rfl
    | cons c cs => simp [resolves] at h
  | cons s segs ih =>
    intro n nodes h
    obtain ⟨c, cs, rfl, _, _, hr⟩ := resolves_cons hx _ _ _ _ _ h
    simp [ih c cs hr]

theorem lookupCalls_snoc (s : String) (segs : List String) :
    ∀ (n : Int) (nodes : List Int), nodes.length = segs.length →
      lookupCalls n nodes (segs ++ [s])
        = lookupCalls n nodes segs ++ [.NodeGetChild (nodes.getLastD n) s] := by
  induction segs with
  | nil =>
    intro n nodes h
    cases nodes with
    | nil => rfl
    | cons c cs => simp at h
  | cons p segs ih =>
    intro n nodes h
    cases nodes with
    | nil => simp at h
    | cons c cs =>
      have h' : cs.length = segs.length := by simpa using h
      have := ih c cs h'
      simp only [lookupCalls] at this ⊢
      simp only [List.cons_append, List.zipWith_cons_cons, this, List.getLastD_cons]

/-- C6: `GetKey` resolves a path by walking from the root.  If the path splits
to nothing it returns the root key and calls nothing; if its segments resolve
one after the other it returns the last key found, having issued exactly their
lookups; if the segments before `s` resolve and the lookup of `s` fails, it
returns the store's error, or `ERROR_CHILD_MISSING` when the store answers with
the 0 sentinel, and no later segment is looked up; and in every case the store
state is as before and every call issued is a `NodeGetChild`. -/
theorem GetKey_walks_from_root (hx : Hivex σ) (lower : Char → Char) (rh : Reghive σ)
    (name : String) :
    (PathSplit lower name = [] → rh.GetKey hx lower name = (.ok rh.Root, rh)) ∧
    (∀ nodes, resolves hx rh.Hive rh.Root.Node (PathSplit lower name) nodes = true →
      rh.GetKey hx lower name
        = (.ok { Node := nodes.getLastD rh.Root.Node },
            { rh with Calls := rh.Calls
                ++ lookupCalls rh.Root.Node nodes (PathSplit lower name) })) ∧
    (∀ pre s post nodes, PathSplit lower name = pre ++ s :: post →
      resolves hx rh.Hive rh.Root.Node pre nodes = true →
      (∀ e, hx.NodeGetChild rh.Hive (nodes.getLastD rh.Root.Node) s = .error e →
        rh.GetKey hx lower name
          = (.error e,
              { rh with Calls := rh.Calls
                  ++ lookupCalls rh.Root.Node nodes (pre ++ [s]) })) ∧
      (hx.NodeGetChild rh.Hive (nodes.getLastD rh.Root.Node) s = .ok 0 →
        rh.GetKey hx lower name
          = (.error ERROR_CHILD_MISSING,
              { rh with Calls := rh.Calls
                  ++ lookupCalls rh.Root.Node nodes (pre ++ [s]) }))) ∧
    ((rh.GetKey hx lower name).2.Hive = rh.Hive ∧
      (rh.GetKey hx lower name).2.Path = rh.Path ∧
      (rh.GetKey hx lower name).2.Root = rh.Root ∧
      ∃ calls, (rh.GetKey hx lower name).2.Calls = rh.Calls ++ calls ∧
        ∀ c ∈ calls, ∃ n s, c = Call.NodeGetChild n s) := by
  refine ⟨?_, ?_, ?_, ?_⟩
  · intro h
    simp [Reghive.GetKey, h]
  · intro nodes h
    by_cases hk : PathSplit lower name = []
    · rw [hk] at h ⊢
      cases nodes with
      | nil => simp [Reghive.GetKey, hk, lookupCalls]
      | cons c cs => simp [resolves] at h
    · have hlen : ¬ (PathSplit lower name).length ≤ 0 := by
        simpa [Nat.le_zero, List.length_eq_zero] using hk
      have := Reghive.GetKey.loop_resolves hx (PathSplit lower name) [] rh rh.Root nodes h
      simp only [List.append_nil] at this
      simp only [Reghive.GetKey, if_neg hlen, this, Reghive.GetKey.walk]
  · intro pre s post nodes hsplit h
    have hlen : ¬ (PathSplit lower name).length ≤ 0 := by
      rw [hsplit]; simp
    have hw := Reghive.GetKey.loop_resolves hx pre (s :: post) rh rh.Root nodes h
    have hcalls : rh.Calls ++ lookupCalls rh.Root.Node nodes (pre ++ [s])
        = (rh.Calls ++ lookupCalls rh.Root.Node nodes pre)
          ++ [.NodeGetChild (nodes.getLastD rh.Root.Node) s] := by
      rw [lookupCalls_snoc s pre _ _ (resolves_length hx _ _ _ _ h), List.append_assoc]
    have hG : rh.GetKey hx lower name
        = match Key.GetChild hx
              { rh with Calls := rh.Calls ++ lookupCalls rh.Root.Node nodes pre }
              { Node := nodes.getLastD rh.Root.Node } s with
          | (.error err, rh) => (.error err, rh)
          | (.ok child, rh) => Reghive.GetKey.walk hx rh child post := by
      show (if (PathSplit lower name).length ≤ 0 then _ else _) = _
      rw [if_neg hlen, hsplit, hw, Reghive.GetKey.walk]
    constructor
    · intro e he
      rw [hG, Key.GetChild_error hx
        { rh with Calls := rh.Calls ++ lookupCalls rh.Root.Node nodes pre }
        { Node := nodes.getLastD rh.Root.Node } s e he, hcalls]
    · intro he
      rw [hG, Key.GetChild_zero hx
        { rh with Calls := rh.Calls ++ lookupCalls rh.Root.Node nodes pre }
        { Node := nodes.getLastD rh.Root.Node } s he, hcalls]
  · by_cases hk : (PathSplit lower name).length ≤ 0
    · have hw : rh.GetKey hx lower name = (.ok rh.Root, rh) := by
        simp only [Reghive.GetKey, if_pos hk]
      rw [hw]
      exact ⟨rfl, rfl, rfl, [], by simp, by simp⟩
    · have hw : rh.GetKey hx lower name
          = Reghive.GetKey.walk hx rh rh.Root (PathSplit lower name) := by
        simp only [Reghive.GetKey, if_neg hk]
      rw [hw]
      exact Reghive.GetKey.loop_frame hx _ rh rh.Root

/-! ## `MakeKey` -/

theorem Key.MakeChild_ok (hx : Hivex σ) (rh : Reghive σ) (k : Key) (s : String) (c r : Int)
    (st1 st2 : σ) (hadd : hx.NodeAddChild rh.Hive k.Node s = (.ok c, st1))
    (hcommit : hx.Commit st1 = (.ok r, st2)) :
    k.MakeChild hx rh s
      = (.ok { Node := c },
          { rh with Hive := st2,
                    Calls := rh.Calls ++ [.NodeAddChild k.Node s, .Commit] }) := by
  simp [Key.MakeChild, Reghive.write, Reghive.sync, hadd, hcommit, Reghive.DecodeKey]

/-- The first loop of `MakeKey` on segments that resolve: it continues behind
them from the last node found; `new` then holds the index of the last segment
that was looked up. -/
theorem Reghive.MakeKey.firstLoop_resolves (hx : Hivex σ) (pre rest : List String) :
    ∀ (rh : Reghive σ) (key : Key) (new i : Nat) (nodes : List Int),
      resolves hx rh.Hive key.Node pre nodes = true →
      Reghive.MakeKey.walk hx rh key new i (pre ++ rest)
        = Reghive.MakeKey.walk hx
            { rh with Calls := rh.Calls ++ lookupCalls key.Node nodes pre }
            { Node := nodes.getLastD key.Node }
            (if pre = [] then new else i + pre.length - 1) (i + pre.length) rest := by
  induction pre with
  | nil =>
    intro rh key new i nodes h
    cases nodes with
    | nil => simp [lookupCalls]
    | cons c cs => simp [resolves] at h
  | cons s segs ih =>
    intro rh key new i nodes h
    obtain ⟨c, cs, rfl, hg, hc, hr⟩ := resolves_cons hx _ _ _ _ _ h
    simp only [List.cons_append, Reghive.MakeKey.walk, Key.GetChild_ok hx rh key s c hg hc,
      List.append_eq]
    rw [ih { rh with Calls := rh.Calls ++ [.NodeGetChild key.Node s] } { Node := c } i (i + 1)
      cs hr]
    have hnew : (if segs = [] then i else i + 1 + segs.length - 1)
        = (if s :: segs = [] then new else i + (s :: segs).length - 1) := by
      by_cases hs : segs = []
      · simp [hs]
      · simp [hs]
    have hi : i + 1 + segs.length = i + (s :: segs).length := by simp; omega
    rw [hnew, hi]
    simp only [lookupCalls, List.zipWith_cons_cons, List.append_assoc, List.singleton_append,
      List.getLastD_cons]

/-- C7: the root cannot be remade.  For every path that splits to the empty
sequence, in particular `""` and `"/"`, `MakeKey` returns `ERROR_ROOT_MAKE` and
the session is exactly as before: no lookup, creation or commit is issued. -/
theorem MakeKey_root_refused (hx : Hivex σ) (lower : Char → Char) (rh : Reghive σ) :
    (∀ name, PathSplit lower name = [] →
      rh.MakeKey hx lower name = (.error ERROR_ROOT_MAKE, rh)) ∧
    rh.MakeKey hx lower "" = (.error ERROR_ROOT_MAKE, rh) ∧
    rh.MakeKey hx lower "/" = (.error ERROR_ROOT_MAKE, rh) := by
  have h : ∀ name, PathSplit lower name = [] →
      rh.MakeKey hx lower name = (.error ERROR_ROOT_MAKE, rh) := by
    intro name hn
    simp [Reghive.MakeKey, hn]
  exact ⟨h, h "" (by simp [PathSplit]), h "/" (by simp [PathSplit])⟩

/-- C7 at the path `"/"` on the empty hive. -/
theorem MakeKey_root_refused_witness :
    PathSplit Char.toLower "/" = [] ∧
    (session emptyHive).MakeKey memHivex Char.toLower "/"
      = (.error ERROR_ROOT_MAKE, session emptyHive) :=
  ⟨by decide, (MakeKey_root_refused memHivex Char.toLower (session emptyHive)).1 "/" (by decide)⟩

/-- C3: what `MakeKey` does on a path all of whose segments resolve.  `GetKey`
returns the key found; `MakeKey`, after the same lookups, calls `MakeChild` on
that key with the last segment, because `new` still holds the index of the last
segment when its first loop ends without a break.  So it does not return the
existing key without creating, as its doc comment ("makes a specified key if it
doesn't exist") says. -/
theorem MakeKey_existing_adds_child (hx : Hivex σ) (lower : Char → Char) (rh : Reghive σ)
    (name : String) (pre : List String) (s : String) (nodes : List Int)
    (hsplit : PathSplit lower name = pre ++ [s])
    (hres : resolves hx rh.Hive rh.Root.Node (pre ++ [s]) nodes = true) :
    rh.GetKey hx lower name
      = (.ok { Node := nodes.getLastD rh.Root.Node },
          { rh with Calls := rh.Calls ++ lookupCalls rh.Root.Node nodes (pre ++ [s]) }) ∧
    rh.MakeKey hx lower name
      = Key.MakeChild hx
          { rh with Calls := rh.Calls ++ lookupCalls rh.Root.Node nodes (pre ++ [s]) }
          { Node := nodes.getLastD rh.Root.Node } s := by
  have hlen : ¬ (PathSplit lower name).length ≤ 0 := by
    rw [hsplit]; simp
  constructor
  · have := Reghive.GetKey.loop_resolves hx (pre ++ [s]) [] rh rh.Root nodes hres
    simp only [List.append_nil] at this
    show (if (PathSplit lower name).length ≤ 0 then _ else _) = _
    rw [if_neg hlen, hsplit, this, Reghive.GetKey.walk]
  · have hw := Reghive.MakeKey.firstLoop_resolves hx (pre ++ [s]) [] rh rh.Root 0 0 nodes hres
    simp only [List.append_nil, Reghive.MakeKey.walk] at hw
    have hne : pre ++ [s] ≠ [] := by simp
    rw [if_neg hne] at hw
    show (if (PathSplit lower name).length ≤ 0 then _ else _) = _
    rw [if_neg hlen, hsplit, hw]
    have hd : (pre ++ [s]).drop (0 + (pre ++ [s]).length - 1) = [s] := by
      simp
    simp only [hd, Reghive.MakeKey.create]
    cases hm : Key.MakeChild hx
        { rh with Calls := rh.Calls ++ lookupCalls rh.Root.Node nodes (pre ++ [s]) }
        { Node := nodes.getLastD rh.Root.Node } s with
    | mk r rh' =>
      cases r <;> rfl

theorem resolves_cons_iff (hx : Hivex σ) (st : σ) (n : Int) (s : String) (segs : List String)
    (c : Int) (cs : List Int) :
    resolves hx st n (s :: segs) (c :: cs) = true ↔
      hx.NodeGetChild st n s = .ok c ∧ c ≠ 0 ∧ resolves hx st c segs cs = true := by
  constructor
  · intro h
    obtain ⟨c', cs', he, h1, h2, h3⟩ := resolves_cons hx _ _ _ _ _ h
    cases he
    exact ⟨h1, h2, h3⟩
  · rintro ⟨h1, h2, h3⟩
    simp [resolves, h1, h2, h3]

/-- Segments that resolve keep resolving in a state that preserves every
successful lookup. -/
theorem resolves_mono (hx : Hivex σ) (st st' : σ)
    (hkeep : ∀ p nm c, c ≠ 0 → hx.NodeGetChild st p nm = .ok c →
      hx.NodeGetChild st' p nm = .ok c)
    (segs : List String) :
    ∀ (n : Int) (nodes : List Int), resolves hx st n segs nodes = true →
      resolves hx st' n segs nodes = true := by
  induction segs with
  | nil =>
    intro n nodes h
    cases nodes with
    | nil => rfl
    | cons c cs => simp [resolves] at h
  | cons s segs ih =>
    intro n nodes h
    obtain ⟨c, cs, rfl, hg, hc, hr⟩ := resolves_cons hx _ _ _ _ _ h
    exact (resolves_cons_iff hx _ _ _ _ _ _).2 ⟨hkeep _ _ _ hc hg, hc, ih c cs hr⟩

theorem resolves_append (hx : Hivex σ) (st : σ) (pre post : List String) (cs : List Int) :
    ∀ (n : Int) (nodes : List Int), resolves hx st n pre nodes = true →
      resolves hx st (nodes.getLastD n) post cs = true →
      resolves hx st n (pre ++ post) (nodes ++ cs) = true := by
  induction pre with
  | nil =>
    intro n nodes h h2
    cases nodes with
    | nil => simpa using h2
    | cons c cs => simp [resolves] at h
  | cons s segs ih =>
    intro n nodes h h2
    obtain ⟨c, cs', rfl, hg, hc, hr⟩ := resolves_cons hx _ _ _ _ _ h
    rw [List.getLastD_cons] at h2
    exact (resolves_cons_iff hx _ _ _ _ _ _).2 ⟨hg, hc, ih c cs' hr h2⟩

theorem resolves_take (hx : Hivex σ) (st : σ) (segs : List String) :
    ∀ (j : Nat) (n : Int) (nodes : List Int), resolves hx st n segs nodes = true →
      resolves hx st n (segs.take j) (nodes.take j) = true := by
  induction segs with
  | nil =>
    intro j n nodes h
    cases nodes with
    | nil => simp [resolves]
    | cons c cs => simp [resolves] at h
  | cons s segs ih =>
    intro j n nodes h
    obtain ⟨c, cs, rfl, hg, hc, hr⟩ := resolves_cons hx _ _ _ _ _ h
    cases j with
    | zero => simp [resolves]
    | succ j =>
      simp only [List.take_succ_cons]
      exact (resolves_cons_iff hx _ _ _ _ _ _).2 ⟨hg, hc, ih j c cs hr⟩

/-- The second loop of `MakeKey` on a lawful store, entered where the first
segment is reported absent: every addition and commit succeeds, the calls are
the additions one below the other, and in the final state the new chain
resolves while everything that resolved before still does. -/
theorem Reghive.MakeKey.create_run (hx : Hivex σ) (hl : hx.Lawful) (segs : List String) :
    ∀ (s : String) (rh : Reghive σ) (key : Key),
      hx.NodeGetChild rh.Hive key.Node s = .ok 0 →
      ∃ (created : List Int) (st' : σ),
        created.length = segs.length + 1 ∧
        hx.CreateRun rh.Hive key.Node (s :: segs) created st' ∧
        Reghive.MakeKey.create hx rh key (s :: segs)
          = (.ok { Node := created.getLastD key.Node },
              { rh with Hive := st',
                        Calls := rh.Calls ++ createCalls key.Node created (s :: segs) }) ∧
        resolves hx st' key.Node (s :: segs) created = true ∧
        (∀ p nm c, c ≠ 0 → hx.NodeGetChild rh.Hive p nm = .ok c →
          hx.NodeGetChild st' p nm = .ok c) := by
  induction segs with
  | nil =>
    intro s rh key hmiss
    obtain ⟨c, st1, hadd⟩ := hl.add_ok _ _ _ hmiss
    obtain ⟨r, st2, hcommit, hsame⟩ := hl.commit_ok st1
    obtain ⟨hc, hget⟩ := hl.add_get _ _ _ _ _ hadd
    refine ⟨[c], st2, rfl, ⟨st1, r, st2, hadd, hcommit, rfl⟩, ?_, ?_, ?_⟩
    · simp only [Reghive.MakeKey.create, Key.MakeChild_ok hx rh key s c r st1 st2 hadd hcommit]
      rfl
    · exact (resolves_cons_iff hx _ _ _ _ _ _).2 ⟨by rw [hsame, hget], hc, rfl⟩
    · intro p nm c' hc' hg
      rw [hsame]
      exact hl.add_keep _ _ _ _ _ hadd p nm c' hc' hg
  | cons s2 rest ih =>
    intro s rh key hmiss
    obtain ⟨c, st1, hadd⟩ := hl.add_ok _ _ _ hmiss
    obtain ⟨r, st2, hcommit, hsame⟩ := hl.commit_ok st1
    obtain ⟨hc, hget⟩ := hl.add_get _ _ _ _ _ hadd
    have hnew : hx.NodeGetChild st2 c s2 = .ok 0 := by
      rw [hsame]; exact hl.add_new _ _ _ _ _ hadd s2
    obtain ⟨created, st', hlen, hrun, hcreate, hres, hkeep⟩ :=
      ih s2 { rh with Hive := st2, Calls := rh.Calls ++ [.NodeAddChild key.Node s, .Commit] }
        { Node := c } hnew
    have hkeep0 : ∀ p nm c', c' ≠ 0 → hx.NodeGetChild rh.Hive p nm = .ok c' →
        hx.NodeGetChild st' p nm = .ok c' := by
      intro p nm c' hc' hg
      apply hkeep p nm c' hc'
      show hx.NodeGetChild st2 p nm = .ok c'
      rw [hsame]
      exact hl.add_keep _ _ _ _ _ hadd p nm c' hc' hg
    refine ⟨c :: created, st', by simp [hlen], ⟨st1, r, st2, hadd, hcommit, hrun⟩, ?_, ?_, hkeep0⟩
    · rw [Reghive.MakeKey.create, Key.MakeChild_ok hx rh key s c r st1 st2 hadd hcommit]
      simp only [hcreate, List.getLastD_cons]
      simp [createCalls]
    · refine (resolves_cons_iff hx _ _ _ _ _ _).2 ⟨?_, hc, hres⟩
      apply hkeep key.Node s c hc
      show hx.NodeGetChild st2 key.Node s = .ok c
      rw [hsame, hget]

/-! ## The reference store is lawful -/

theorem MemHive.le_bound (st : MemHive) :
    ∀ nd ∈ st.nodes, nd.id.natAbs ≤ st.bound ∧ nd.parent.natAbs ≤ st.bound := by
  unfold MemHive.bound
  induction st.nodes with
  | nil => simp
  | cons a l ih =>
    intro nd hnd
    simp only [List.foldr_cons]
    rcases List.mem_cons.1 hnd with h | h
    · subst h
      omega
    · have := ih nd h
      omega

theorem MemHive.sameName_refl (a : String) : MemHive.sameName a a = true := by
  simp [MemHive.sameName]

theorem MemHive.node?_id (st : MemHive) (n : Int) (nd : MemNode) (h : st.node? n = some nd) :
    nd ∈ st.nodes ∧ nd.id = n := by
  unfold MemHive.node? at h
  exact ⟨List.mem_of_find?_eq_some h, by simpa using List.find?_some h⟩

theorem MemHive.NodeAddChild_ok (st st' : MemHive) (p c : Int) (nm : String)
    (h : MemHive.NodeAddChild st p nm = (.ok c, st')) :
    (∃ nd, st.node? p = some nd) ∧ st.child? p nm = none ∧ c = st.fresh ∧
      st' = { st with nodes := st.nodes ++
        [{ id := st.fresh, parent := p, name := nm, values := [] }] } := by
  unfold MemHive.NodeAddChild at h
  cases hn : st.node? p with
  | none => simp [hn] at h
  | some nd =>
    cases hc : st.child? p nm with
    | some c0 => simp [hn, hc] at h
    | none =>
      simp only [hn, hc, Prod.mk.injEq, Except.ok.injEq] at h
      exact ⟨⟨nd, rfl⟩, rfl, h.1.symm, h.2.symm⟩

theorem MemHive.fresh_pos (st : MemHive) : st.fresh ≠ 0 := by
  unfold MemHive.fresh
  omega

theorem MemHive.fresh_not_used (st : MemHive) :
    ∀ nd ∈ st.nodes, nd.id ≠ st.fresh ∧ nd.parent ≠ st.fresh := by
  intro nd hnd
  have := MemHive.le_bound st nd hnd
  unfold MemHive.fresh
  omega

theorem memHivex_lawful : memHivex.Lawful where
  commit_ok := fun st => ⟨0, st, rfl, fun _ _ => rfl⟩
  add_ok := by
    intro st p nm h
    simp only [memHivex, MemHive.NodeGetChild] at h
    simp only [memHivex, MemHive.NodeAddChild]
    cases hn : st.node? p with
    | none => simp [hn] at h
    | some nd =>
      cases hc : st.child? p nm with
      | none => exact ⟨_, _, rfl⟩
      | some c =>
        simp only [hn, hc] at h
        have := List.find?_some hc
        simp at this
        simp at h
        exact absurd h this.1
  add_get := by
    intro st p nm c st' h
    obtain ⟨⟨nd, hn⟩, hc, rfl, rfl⟩ := MemHive.NodeAddChild_ok st st' p c nm h
    refine ⟨MemHive.fresh_pos st, ?_⟩
    have hn' : MemHive.node? { st with nodes := st.nodes ++
        [{ id := st.fresh, parent := p, name := nm, values := [] }] } p = some nd := by
      unfold MemHive.node? at hn ⊢
      simp [List.find?_append, hn]
    have hc' : MemHive.child? { st with nodes := st.nodes ++
        [{ id := st.fresh, parent := p, name := nm, values := [] }] } p nm
        = some { id := st.fresh, parent := p, name := nm, values := [] } := by
      unfold MemHive.child? at hc ⊢
      rw [List.find?_append, hc]
      simp [MemHive.fresh_pos st, MemHive.sameName_refl]
    simp only [memHivex, MemHive.NodeGetChild, hn', hc']
  add_new := by
    intro st p nm c st' h nm'
    obtain ⟨⟨nd, hn⟩, hc, rfl, rfl⟩ := MemHive.NodeAddChild_ok st st' p c nm h
    obtain ⟨hmem, hid⟩ := MemHive.node?_id st p nd hn
    have hp : p ≠ st.fresh := by
      rw [← hid]; exact (MemHive.fresh_not_used st nd hmem).1
    have hn' : ∃ nd', MemHive.node? { st with nodes := st.nodes ++
        [{ id := st.fresh, parent := p, name := nm, values := [] }] } st.fresh = some nd' := by
      unfold MemHive.node?
      rw [List.find?_append]
      cases hf : List.find? (fun nd => decide (nd.id = st.fresh)) st.nodes with
      | some x => exact ⟨x, rfl⟩
      | none => exact ⟨{ id := st.fresh, parent := p, name := nm, values := [] }, by simp⟩
    obtain ⟨nd', hn'⟩ := hn'
    have hc' : MemHive.child? { st with nodes := st.nodes ++
        [{ id := st.fresh, parent := p, name := nm, values := [] }] } st.fresh nm' = none := by
      unfold MemHive.child?
      rw [List.find?_eq_none]
      intro x hx
      simp only [List.mem_append, List.mem_singleton] at hx
      rcases hx with hx | hx
      · have := (MemHive.fresh_not_used st x hx).2
        simp [this]
      · subst hx
        simp [hp]
    simp only [memHivex, MemHive.NodeGetChild, hn', hc']
  add_keep := by
    intro st p nm c st' h p' nm' c' hc' hg
    obtain ⟨_, _, rfl, rfl⟩ := MemHive.NodeAddChild_ok st st' p c nm h
    simp only [memHivex, MemHive.NodeGetChild] at hg ⊢
    cases hn : st.node? p' with
    | none => simp [hn] at hg
    | some nd =>
      cases hc : st.child? p' nm' with
      | none =>
        simp only [hn, hc, Except.ok.injEq] at hg
        exact absurd hg.symm hc'
      | some x =>
        simp only [hn, hc] at hg
        have hn' : MemHive.node? { st with nodes := st.nodes ++
            [{ id := st.fresh, parent := p, name := nm, values := [] }] } p' = some nd := by
          unfold MemHive.node? at hn ⊢
          simp [List.find?_append, hn]
        have hx' : MemHive.child? { st with nodes := st.nodes ++
            [{ id := st.fresh, parent := p, name := nm, values := [] }] } p' nm' = some x := by
          unfold MemHive.child? at hc ⊢
          rw [List.find?_append, hc]
          rfl
        simp only [hn', hx', hg]

/-- On a path whose segments all resolve, `GetKey` returns the last node found,
having issued exactly the lookups of the walk. -/
theorem Reghive.GetKey_of_resolves (hx : Hivex σ) (lower : Char → Char) (rh : Reghive σ)
    (name : String) (nodes : List Int)
    (h : resolves hx rh.Hive rh.Root.Node (PathSplit lower name) nodes = true) :
    rh.GetKey hx lower name
      = (.ok { Node := nodes.getLastD rh.Root.Node },
          { rh with Calls := rh.Calls
              ++ lookupCalls rh.Root.Node nodes (PathSplit lower name) }) := by
  by_cases hk : PathSplit lower name = []
  · rw [hk] at h ⊢
    cases nodes with
    | nil => simp [Reghive.GetKey, hk, lookupCalls]
    | cons c cs => simp [resolves] at h
  · have hlen : ¬ (PathSplit lower name).length ≤ 0 := by
      simpa [Nat.le_zero, List.length_eq_zero] using hk
    have := Reghive.GetKey.loop_resolves hx (PathSplit lower name) [] rh rh.Root nodes h
    simp only [List.append_nil] at this
    simp only [Reghive.GetKey, if_neg hlen, this, Reghive.GetKey.walk]

/-- C2: `MakeKey` creates every missing ancestor in order.  On a lawful store,
if the path splits to `pre ++ s :: post`, the segments `pre` resolve from the
root and the store reports `s` absent below the last of them, then `MakeKey`
succeeds: after the lookups of `pre` and `s` it adds `s :: post` one below the
other, committing after each addition, returns the last node created, and in
the session it leaves `GetKey` of every path that splits to the first `j`
segments succeeds with the node of that segment. -/
theorem MakeKey_creates_missing (hx : Hivex σ) (hl : hx.Lawful) (lower : Char → Char)
    (rh : Reghive σ) (name : String) (pre : List String) (s : String) (post : List String)
    (nodes : List Int)
    (hsplit : PathSplit lower name = pre ++ s :: post)
    (hres : resolves hx rh.Hive rh.Root.Node pre nodes = true)
    (hmiss : hx.NodeGetChild rh.Hive (nodes.getLastD rh.Root.Node) s = .ok 0) :
    ∃ (created : List Int) (st' : σ),
      created.length = post.length + 1 ∧
      hx.CreateRun rh.Hive (nodes.getLastD rh.Root.Node) (s :: post) created st' ∧
      rh.MakeKey hx lower name
        = (.ok { Node := created.getLastD (nodes.getLastD rh.Root.Node) },
            { rh with
                Hive := st',
                Calls := rh.Calls ++ lookupCalls rh.Root.Node nodes (pre ++ [s])
                  ++ createCalls (nodes.getLastD rh.Root.Node) created (s :: post) }) ∧
      ∀ (j : Nat) (q : String), PathSplit lower q = (pre ++ s :: post).take j →
        ((rh.MakeKey hx lower name).2.GetKey hx lower q).1
          = .ok { Node := ((nodes ++ created).take j).getLastD rh.Root.Node } := by
  have hlen : ¬ (PathSplit lower name).length ≤ 0 := by
    rw [hsplit]; simp
  have hnl := resolves_length hx _ _ _ _ hres
  -- the first loop stops at `s`
  have hw : Reghive.MakeKey.walk hx rh rh.Root 0 0 (pre ++ s :: post)
      = ({ Node := nodes.getLastD rh.Root.Node }, 0 + pre.length,
          { rh with Calls := rh.Calls ++ lookupCalls rh.Root.Node nodes (pre ++ [s]) }) := by
    rw [Reghive.MakeKey.firstLoop_resolves hx pre (s :: post) rh rh.Root 0 0 nodes hres,
      Reghive.MakeKey.walk,
      Key.GetChild_zero hx { rh with Calls := rh.Calls ++ lookupCalls rh.Root.Node nodes pre }
        { Node := nodes.getLastD rh.Root.Node } s hmiss,
      lookupCalls_snoc s pre _ _ hnl, List.append_assoc]
  have hd : (pre ++ s :: post).drop (0 + pre.length) = s :: post := by simp
  -- the second loop creates `s :: post`
  obtain ⟨created, st', hcl, hrun, hcreate, hnew, hkeep⟩ :=
    Reghive.MakeKey.create_run hx hl post s
      { rh with Calls := rh.Calls ++ lookupCalls rh.Root.Node nodes (pre ++ [s]) }
      { Node := nodes.getLastD rh.Root.Node } hmiss
  have hmk : rh.MakeKey hx lower name
      = (.ok { Node := created.getLastD (nodes.getLastD rh.Root.Node) },
          { rh with
              Hive := st',
              Calls := rh.Calls ++ lookupCalls rh.Root.Node nodes (pre ++ [s])
                ++ createCalls (nodes.getLastD rh.Root.Node) created (s :: post) }) := by
    show (if (PathSplit lower name).length ≤ 0 then _ else _) = _
    rw [if_neg hlen, hsplit, hw]
    simp only [hd]
    exact hcreate
  refine ⟨created, st', hcl, hrun, hmk, ?_⟩
  intro j q hq
  have hall : resolves hx st' rh.Root.Node (pre ++ s :: post) (nodes ++ created) = true :=
    resolves_append hx st' pre (s :: post) created _ _
      (resolves_mono hx rh.Hive st' hkeep pre _ _ hres) hnew
  have htake := resolves_take hx st' _ j _ _ hall
  rw [hmk]
  rw [← hq] at htake
  rw [Reghive.GetKey_of_resolves hx lower _ q _ htake]

/-- C2 on the empty hive: `MakeKey("/a/b/c")` looks `a` up, then adds `a` below
the root, `b` below `a` and `c` below `b`, and `GetKey("/a/b")` then succeeds. -/
theorem MakeKey_creates_missing_witness :
    (∃ (created : List Int) (st' : MemHive),
      created.length = 3 ∧
      memHivex.CreateRun emptyHive 1 ["a", "b", "c"] created st' ∧
      (session emptyHive).MakeKey memHivex Char.toLower "/a/b/c"
        = (.ok { Node := created.getLastD 1 },
            { session emptyHive with
                Hive := st',
                Calls := [] ++ lookupCalls 1 [] ["a"]
                  ++ createCalls 1 created ["a", "b", "c"] }) ∧
      ∀ (j : Nat) (q : String), PathSplit Char.toLower q = ["a", "b", "c"].take j →
        (((session emptyHive).MakeKey memHivex Char.toLower "/a/b/c").2.GetKey memHivex
            Char.toLower q).1
          = .ok { Node := (([] ++ created).take j).getLastD 1 }) ∧
    ((session emptyHive).MakeKey memHivex Char.toLower "/a/b/c").2.Calls
      = [.NodeGetChild 1 "a", .NodeAddChild 1 "a", .Commit, .NodeAddChild 2 "b", .Commit,
          .NodeAddChild 3 "c", .Commit] ∧
    (((session emptyHive).MakeKey memHivex Char.toLower "/a/b/c").2.GetKey memHivex
        Char.toLower "/a/b").1 = .ok { Node := 3 } :=
  ⟨MakeKey_creates_missing memHivex memHivex_lawful Char.toLower (session emptyHive) "/a/b/c"
      [] "a" ["b", "c"] [] (by decide) (by rfl) (by rfl),
    by rfl, by rfl⟩

/-- C3 on the hive holding `/foo`: `GetKey("/foo/")` returns node 2, while
`MakeKey("/foo/")` adds a child `foo` below node 2 and returns the new node 3. -/
theorem MakeKey_existing_adds_child_witness :
    ((session fooHive).GetKey memHivex Char.toLower "/foo/").1 = .ok { Node := 2 } ∧
    ((session fooHive).MakeKey memHivex Char.toLower "/foo/").1 = .ok { Node := 3 } ∧
    ((session fooHive).MakeKey memHivex Char.toLower "/foo/").2.Calls
      = [.NodeGetChild 1 "foo", .NodeAddChild 2 "foo", .Commit] := by
  have h := MakeKey_existing_adds_child memHivex Char.toLower (session fooHive) "/foo/"
    [] "foo" [2] (by decide) (by rfl)
  refine ⟨?_, ?_, ?_⟩
  · rw [h.1]; rfl
  · rw [h.2]; rfl
  · rw [h.2]; rfl

/-- C6 on the hive holding `/foo`: `"/Foo"` resolves to that key with one lookup,
and `"/foo/bar/baz"` fails at `bar` with `ERROR_CHILD_MISSING` after two
lookups, `baz` never being looked up. -/
theorem GetKey_walks_from_root_witness :
    (session fooHive).GetKey memHivex Char.toLower "/Foo"
      = (.ok { Node := 2 },
          { session fooHive with Calls := [.NodeGetChild 1 "foo"] }) ∧
    (session fooHive).GetKey memHivex Char.toLower "/foo/bar/baz"
      = (.error ERROR_CHILD_MISSING,
          { session fooHive with Calls := [.NodeGetChild 1 "foo", .NodeGetChild 2 "bar"] }) :=
  ⟨(GetKey_walks_from_root memHivex Char.toLower (session fooHive) "/Foo").2.1 [2] (by rfl),
    ((GetKey_walks_from_root memHivex Char.toLower (session fooHive) "/foo/bar/baz").2.2.1
      ["foo"] "bar" ["baz"] [2] (by decide) (by rfl)).2 (by rfl)⟩

/-! ## `DeleteKey` -/

/-- C8: what `DeleteKey` does on a path that resolves to the root.  There is no
root check: it reads the root's name and asks the store for the root's parent,
and when the store refuses, the store's error is what `DeleteKey` returns, not
`ERROR_ROOT_DELETE`; nothing has been deleted at that point. -/
theorem DeleteKey_root_unguarded (hx : Hivex σ) (lower : Char → Char) (rh : Reghive σ)
    (name nm : String) (e : GoError)
    (hsplit : PathSplit lower name = [])
    (hname : hx.NodeName rh.Hive rh.Root.Node = .ok nm)
    (hparent : hx.NodeParent rh.Hive rh.Root.Node = .error e) :
    rh.DeleteKey hx lower name
      = (.error e,
          { rh with Calls := rh.Calls
              ++ [.NodeName rh.Root.Node, .NodeParent rh.Root.Node] }) := by
  simp [Reghive.DeleteKey, Reghive.GetKey, hsplit, Key.GetName, Key.GetParent, Reghive.read,
    hname, hparent]

/-- C8 on the empty hive: `DeleteKey("/")` returns the store's `EINVAL` after the
two reads, which is not `ERROR_ROOT_DELETE`. -/
theorem DeleteKey_root_unguarded_witness :
    (session emptyHive).DeleteKey memHivex Char.toLower "/"
      = (.error MemHive.EINVAL,
          { session emptyHive with Calls := [.NodeName 1, .NodeParent 1] }) ∧
    MemHive.EINVAL ≠ ERROR_ROOT_DELETE :=
  ⟨DeleteKey_root_unguarded memHivex Char.toLower (session emptyHive) "/" "" MemHive.EINVAL
      (by decide) (by rfl) (by rfl),
    by decide⟩

/-! ## `SetValue` -/

/-- C9: `SetValue` never reaches the node store.  For every store, buffer, value
and data the session after `SetValue` is the session before it, whereas
`SetType` on a ready value starts by pushing the triple with `NodeSetValue`.
In the run of `example/main.go` on the empty hive the value holds the bytes of
`"asdf"` after `SetValue`, the value read back with `GetValue` still holds the
single zero byte, and the only value ever pushed is the one `MakeValue` made. -/
theorem SetValue_does_not_sync :
    (∀ (σ β : Type) (hx : Hivex σ) (cr : Crunchio β) (rh : Reghive σ) (v : Value β)
        (data : Data), (v.SetValue hx cr rh data).2.2 = rh) ∧
    (∀ (σ β : Type) (hx : Hivex σ) (cr : Crunchio β) (rh : Reghive σ) (v : Value β)
        (valType : RegValueType), ∃ rest,
        (Value.SetType hx cr rh { v with ready := true } valType).2.2.Calls
          = rh.Calls ++ .NodeSetValue v.Key.Node
              (Value.hiveValue cr { v with ready := true, Typ := valType }) :: rest) ∧
    ((exampleMain memHivex memBuffer Char.toLower (session emptyHive)).1.map
        (fun p => (p.1.ready, memBuffer.Bytes p.1.Buffer, memBuffer.Bytes p.2.Buffer)))
      = .ok (true, [0, 97, 115, 100, 102], [0]) ∧
    (exampleMain memHivex memBuffer Char.toLower (session emptyHive)).2.Calls.filter Call.isPush
      = [.Commit, .NodeSetValue 2 { Typ := RegNone, Key := "bar", Value := [0] }, .Commit] := by
  refine ⟨?_, ?_, by rfl, by rfl⟩
  · intro σ β hx cr rh v data
    cases data <;> rfl
  · intro σ β hx cr rh v valType
    simp only [Value.SetType, Value.sync, Reghive.write, Reghive.sync]
    cases h1 : hx.NodeSetValue rh.Hive v.Key.Node
        (Value.hiveValue cr { v with ready := true, Typ := valType }) with
    | mk r1 st1 =>
      cases r1 with
      | error e => exact ⟨[], by simp [h1]⟩
      | ok n =>
        cases h2 : hx.Commit st1 with
        | mk r2 st2 =>
          cases r2 with
          | error e => exact ⟨[.Commit], by simp [h1, h2]⟩
          | ok m => exact ⟨[.Commit], by simp [h1, h2]⟩

/-- C10: `SetValue` leaves the type tag alone.  For every store, buffer, value
and data the `Type` after `SetValue` is the `Type` before it; in the run of
`example/main.go` on the empty hive the value set to the string `"asdf"` is
tagged `RegNone`, not `RegSZ`, in memory and in the store. -/
theorem SetValue_keeps_type :
    (∀ (σ β : Type) (hx : Hivex σ) (cr : Crunchio β) (rh : Reghive σ) (v : Value β)
        (data : Data), (v.SetValue hx cr rh data).2.1.Typ = v.Typ) ∧
    ((exampleMain memHivex memBuffer Char.toLower (session emptyHive)).1.map
        (fun p => (p.1.Typ, p.2.Typ))) = .ok (RegNone, RegNone) ∧
    RegNone ≠ RegSZ := by
  refine ⟨?_, by rfl, by decide⟩
  intro σ β hx cr rh v data
  cases data <;> rfl

/-! ## `DeleteValue` -/

theorem Key.DeleteValue.index_append (node : Int) (pre post : List Int) (hpre : node ∉ pre) :
    ∀ i : Nat, Key.DeleteValue.index node (pre ++ node :: post) i = ((i + pre.length : Nat) : Int) := by
  induction pre with
  | nil => intro i; simp [Key.DeleteValue.index]
  | cons v rest ih =>
    intro i
    have hv : v ≠ node := fun e => hpre (by simp [e])
    have hrest : node ∉ rest := fun e => hpre (by simp [e])
    simp only [List.cons_append, Key.DeleteValue.index, if_neg hv, List.append_eq,
      ih hrest (i + 1), List.length_cons]
    congr 1
    omega

/-- The list read back by `DeleteValue` when the handle found is in the value
list: the list without the first occurrence of the handle. -/
theorem Key.DeleteValue.remaining_append (node : Int) (pre post : List Int)
    (hpre : node ∉ pre) :
    Key.DeleteValue.remaining node (pre ++ node :: post) = pre ++ post := by
  unfold Key.DeleteValue.remaining
  rw [Key.DeleteValue.index_append node pre post hpre 0]
  have h : ((0 + pre.length : Nat) : Int) > -1 := by omega
  rw [if_pos h]
  simp

/-- The read loop when every read succeeds. -/
theorem Key.DeleteValue.collect_ok (hx : Hivex σ) (key : Int → String) (typ : Int → Int)
    (bytes : Int → List Nat) (vs : List Int) :
    ∀ rh : Reghive σ,
      (∀ v ∈ vs, hx.NodeValueKey rh.Hive v = .ok (key v)) →
      (∀ v ∈ vs, hx.ValueValue rh.Hive v = .ok (typ v, bytes v)) →
      Key.DeleteValue.collect hx rh vs
        = (.ok (vs.map (fun v => { Typ := typ v, Key := key v, Value := bytes v })),
            { rh with Calls := rh.Calls
                ++ vs.flatMap (fun v => [Call.NodeValueKey v, Call.ValueValue v]) }) := by
  induction vs with
  | nil => intro rh _ _; simp [Key.DeleteValue.collect]
  | cons v rest ih =>
    intro rh hk hv
    have h1 := hk v (by simp)
    have h2 := hv v (by simp)
    have hr := ih { rh with Calls := rh.Calls ++ [.NodeValueKey v] ++ [.ValueValue v] }
      (fun u hu => hk u (by simp [hu])) (fun u hu => hv u (by simp [hu]))
    simp only [Key.DeleteValue.collect, Reghive.read, h1, h2, hr]
    simp

/-- The read loop only reads, whatever the store answers. -/
theorem Key.DeleteValue.collect_frame (hx : Hivex σ) (vs : List Int) :
    ∀ rh : Reghive σ,
      (Key.DeleteValue.collect hx rh vs).2.Hive = rh.Hive ∧
      ∃ calls, (Key.DeleteValue.collect hx rh vs).2.Calls = rh.Calls ++ calls ∧
        ∀ c ∈ calls, c.isRead = true := by
  induction vs with
  | nil => intro rh; exact ⟨rfl, [], by simp [Key.DeleteValue.collect], by simp⟩
  | cons v rest ih =>
    intro rh
    obtain ⟨ih1, calls, ih2, ih3⟩ :=
      ih { rh with Calls := rh.Calls ++ [.NodeValueKey v] ++ [.ValueValue v] }
    cases hk : hx.NodeValueKey rh.Hive v with
    | error e =>
      have hw : Key.DeleteValue.collect hx rh (v :: rest)
          = (.error e, { rh with Calls := rh.Calls ++ [.NodeValueKey v] }) := by
        simp only [Key.DeleteValue.collect, Reghive.read, hk]
      rw [hw]
      exact ⟨rfl, [.NodeValueKey v], rfl, by simp [Call.isRead]⟩
    | ok valueKey =>
      cases hv : hx.ValueValue rh.Hive v with
      | error e =>
        have hw : Key.DeleteValue.collect hx rh (v :: rest)
            = (.error e,
                { rh with Calls := rh.Calls ++ [.NodeValueKey v] ++ [.ValueValue v] }) := by
          simp only [Key.DeleteValue.collect, Reghive.read, hk, hv]
        rw [hw]
        exact ⟨rfl, [.NodeValueKey v, .ValueValue v], by simp, by simp [Call.isRead]⟩
      | ok tv =>
        cases hc : Key.DeleteValue.collect hx
            { rh with Calls := rh.Calls ++ [.NodeValueKey v] ++ [.ValueValue v] } rest with
        | mk r rh' =>
          rw [hc] at ih1 ih2
          have hcalls : rh'.Calls = rh.Calls ++ (.NodeValueKey v :: .ValueValue v :: calls) := by
            rw [ih2]; simp
          have hread : ∀ c ∈ Call.NodeValueKey v :: Call.ValueValue v :: calls,
              c.isRead = true := by
            intro c hcm
            simp only [List.mem_cons] at hcm
            rcases hcm with h | h | h
            · subst h; rfl
            · subst h; rfl
            · exact ih3 c h
          cases r with
          | error e =>
            have hw : Key.DeleteValue.collect hx rh (v :: rest) = (.error e, rh') := by
              simp only [Key.DeleteValue.collect, Reghive.read, hk, hv, hc]
            rw [hw]
            exact ⟨ih1, _, hcalls, hread⟩
          | ok hvs =>
            have hw : Key.DeleteValue.collect hx rh (v :: rest)
                = (.ok ({ Typ := tv.1, Key := valueKey, Value := tv.2 } :: hvs), rh') := by
              simp only [Key.DeleteValue.collect, Reghive.read, hk, hv, hc]
            rw [hw]
            exact ⟨ih1, _, hcalls, hread⟩

/-- The read loop fails as soon as one read fails. -/
theorem Key.DeleteValue.collect_fail (hx : Hivex σ) (vs : List Int) :
    ∀ rh : Reghive σ,
      (∃ v ∈ vs, (∃ e, hx.NodeValueKey rh.Hive v = .error e) ∨
        (∃ e, hx.ValueValue rh.Hive v = .error e)) →
      ∃ e, (Key.DeleteValue.collect hx rh vs).1 = .error e := by
  induction vs with
  | nil => intro rh h; simp at h
  | cons v rest ih =>
    intro rh h
    cases hk : hx.NodeValueKey rh.Hive v with
    | error e =>
      exact ⟨e, by simp only [Key.DeleteValue.collect, Reghive.read, hk]⟩
    | ok valueKey =>
      cases hv : hx.ValueValue rh.Hive v with
      | error e =>
        exact ⟨e, by simp only [Key.DeleteValue.collect, Reghive.read, hk, hv]⟩
      | ok tv =>
        have hrest : ∃ u ∈ rest, (∃ e, hx.NodeValueKey rh.Hive u = .error e) ∨
            (∃ e, hx.ValueValue rh.Hive u = .error e) := by
          obtain ⟨u, hu, hf⟩ := h
          rcases List.mem_cons.1 hu with h0 | h0
          · subst h0
            rcases hf with ⟨e, he⟩ | ⟨e, he⟩
            · rw [hk] at he; cases he
            · rw [hv] at he; cases he
          · exact ⟨u, h0, hf⟩
        obtain ⟨e, he⟩ :=
          ih { rh with Calls := rh.Calls ++ [.NodeValueKey v] ++ [.ValueValue v] } hrest
        cases hc : Key.DeleteValue.collect hx
            { rh with Calls := rh.Calls ++ [.NodeValueKey v] ++ [.ValueValue v] } rest with
        | mk r rh' =>
          rw [hc] at he
          simp only at he
          subst he
          exact ⟨e, by simp only [Key.DeleteValue.collect, Reghive.read, hk, hv, hc]⟩

theorem Key.DeleteValue.filter_reads (vs : List Int) :
    (vs.flatMap (fun v => [Call.NodeValueKey v, Call.ValueValue v])).filter Call.isReplace
      = [] := by
  rw [List.filter_eq_nil_iff]
  intro c hc
  simp only [List.mem_flatMap, List.mem_cons, List.mem_singleton, List.not_mem_nil,
    or_false] at hc
  obtain ⟨v, _, h | h⟩ := hc <;> subst h <;> simp [Call.isReplace]

/-- C1: `DeleteValue` removes exactly the named value and keeps every sibling.
If the store resolves the name to `node`, lists the values of the key as
`pre ++ node :: post` with `node` not in `pre`, and answers every read of a
remaining value, then `DeleteValue` issues, after its reads, one bulk replace
whose sequence is the (type, name, bytes) triples of `pre ++ post` in order, as
read from the store, it commits when the replace succeeds, and that replace is
the only one it adds to the log.  If the lookup of the name, the listing of the
values or a read of a remaining value fails, it returns an error, the store
state is as before and every call issued is a read. -/
theorem DeleteValue_preserves_siblings (hx : Hivex σ) (rh : Reghive σ) (k : Key)
    (name : String) :
    (∀ (node : Int) (pre post : List Int) (key : Int → String) (typ : Int → Int)
        (bytes : Int → List Nat),
      hx.NodeGetValue rh.Hive k.Node name = .ok node →
      hx.NodeValues rh.Hive k.Node = .ok (pre ++ node :: post) →
      node ∉ pre →
      (∀ v ∈ pre ++ post, hx.NodeValueKey rh.Hive v = .ok (key v)) →
      (∀ v ∈ pre ++ post, hx.ValueValue rh.Hive v = .ok (typ v, bytes v)) →
      k.DeleteValue hx rh name
        = (match Reghive.write
              { rh with Calls := rh.Calls ++ [.NodeGetValue k.Node name, .NodeValues k.Node]
                  ++ (pre ++ post).flatMap (fun v => [.NodeValueKey v, .ValueValue v]) }
              (.NodeSetValues k.Node
                ((pre ++ post).map (fun v => { Typ := typ v, Key := key v, Value := bytes v })))
              (hx.NodeSetValues rh.Hive k.Node
                ((pre ++ post).map (fun v => { Typ := typ v, Key := key v, Value := bytes v })))
            with
          | (.error err, rh) => (.error err, rh)
          | (.ok _, rh) => rh.sync hx) ∧
      (k.DeleteValue hx rh name).2.Calls.filter Call.isReplace
        = rh.Calls.filter Call.isReplace ++ [.NodeSetValues k.Node
            ((pre ++ post).map (fun v => { Typ := typ v, Key := key v, Value := bytes v }))]) ∧
    (((∃ e, hx.NodeGetValue rh.Hive k.Node name = .error e) ∨
      (∃ e, hx.NodeValues rh.Hive k.Node = .error e) ∨
      (∃ node values v, hx.NodeGetValue rh.Hive k.Node name = .ok node ∧
        hx.NodeValues rh.Hive k.Node = .ok values ∧
        v ∈ Key.DeleteValue.remaining node values ∧
        ((∃ e, hx.NodeValueKey rh.Hive v = .error e) ∨
          (∃ e, hx.ValueValue rh.Hive v = .error e)))) →
      (∃ e, (k.DeleteValue hx rh name).1 = .error e) ∧
      (k.DeleteValue hx rh name).2.Hive = rh.Hive ∧
      ∃ calls, (k.DeleteValue hx rh name).2.Calls = rh.Calls ++ calls ∧
        ∀ c ∈ calls, c.isRead = true) := by
  constructor
  · intro node pre post key typ bytes hget hvals hpre hkey hval
    have hcollect := Key.DeleteValue.collect_ok hx key typ bytes (pre ++ post)
      { rh with Calls := rh.Calls ++ [.NodeGetValue k.Node name] ++ [.NodeValues k.Node] }
      hkey hval
    have hD : k.DeleteValue hx rh name
        = (match Reghive.write
              { rh with Calls := rh.Calls ++ [.NodeGetValue k.Node name, .NodeValues k.Node]
                  ++ (pre ++ post).flatMap (fun v => [.NodeValueKey v, .ValueValue v]) }
              (.NodeSetValues k.Node
                ((pre ++ post).map (fun v => { Typ := typ v, Key := key v, Value := bytes v })))
              (hx.NodeSetValues rh.Hive k.Node
                ((pre ++ post).map (fun v => { Typ := typ v, Key := key v, Value := bytes v })))
            with
          | (.error err, rh) => (.error err, rh)
          | (.ok _, rh) => rh.sync hx) := by
      simp only [Key.DeleteValue, Reghive.read, hget, hvals,
        Key.DeleteValue.remaining_append node pre post hpre, hcollect]
      simp
    refine ⟨hD, ?_⟩
    rw [hD]
    simp only [Reghive.write, Reghive.sync]
    cases hx.NodeSetValues rh.Hive k.Node
        ((pre ++ post).map (fun v => { Typ := typ v, Key := key v, Value := bytes v })) with
    | mk r1 st1 =>
      cases r1 with
      | error e =>
        simp [List.filter_append, Key.DeleteValue.filter_reads, Call.isReplace]
      | ok n =>
        simp only
        cases hx.Commit st1 with
        | mk r2 st2 =>
          cases r2 <;>
            simp [List.filter_append, Key.DeleteValue.filter_reads, Call.isReplace]
  · have hB1 : ∀ e, hx.NodeGetValue rh.Hive k.Node name = .error e →
        k.DeleteValue hx rh name
          = (.error e, { rh with Calls := rh.Calls ++ [.NodeGetValue k.Node name] }) := by
      intro e he
      simp only [Key.DeleteValue, Reghive.read, he]
    have hB2 : ∀ node e, hx.NodeGetValue rh.Hive k.Node name = .ok node →
        hx.NodeValues rh.Hive k.Node = .error e →
        k.DeleteValue hx rh name
          = (.error e, { rh with Calls := rh.Calls ++ [.NodeGetValue k.Node name]
              ++ [.NodeValues k.Node] }) := by
      intro node e hn he
      simp only [Key.DeleteValue, Reghive.read, hn, he]
    have hB3 : ∀ node values e rh', hx.NodeGetValue rh.Hive k.Node name = .ok node →
        hx.NodeValues rh.Hive k.Node = .ok values →
        Key.DeleteValue.collect hx
          { rh with Calls := rh.Calls ++ [.NodeGetValue k.Node name] ++ [.NodeValues k.Node] }
          (Key.DeleteValue.remaining node values) = (.error e, rh') →
        k.DeleteValue hx rh name = (.error e, rh') := by
      intro node values e rh' hn hv hc
      simp only [Key.DeleteValue, Reghive.read, hn, hv, hc]
    rintro (⟨e, he⟩ | ⟨e, he⟩ | ⟨node, values, v, hn, hv, hmem, hfail⟩)
    · rw [hB1 e he]
      exact ⟨⟨e, rfl⟩, rfl, [.NodeGetValue k.Node name], rfl, by simp [Call.isRead]⟩
    · cases hn : hx.NodeGetValue rh.Hive k.Node name with
      | error e' =>
        rw [hB1 e' hn]
        exact ⟨⟨e', rfl⟩, rfl, [.NodeGetValue k.Node name], rfl, by simp [Call.isRead]⟩
      | ok node =>
        rw [hB2 node e hn he]
        exact ⟨⟨e, rfl⟩, rfl, [.NodeGetValue k.Node name, .NodeValues k.Node], by simp,
          by simp [Call.isRead]⟩
    · obtain ⟨e, hce⟩ := Key.DeleteValue.collect_fail hx (Key.DeleteValue.remaining node values)
        { rh with Calls := rh.Calls ++ [.NodeGetValue k.Node name] ++ [.NodeValues k.Node] }
        ⟨v, hmem, hfail⟩
      obtain ⟨hf1, calls, hf2, hf3⟩ :=
        Key.DeleteValue.collect_frame hx (Key.DeleteValue.remaining node values)
          { rh with Calls := rh.Calls ++ [.NodeGetValue k.Node name] ++ [.NodeValues k.Node] }
      cases hc : Key.DeleteValue.collect hx
          { rh with Calls := rh.Calls ++ [.NodeGetValue k.Node name] ++ [.NodeValues k.Node] }
          (Key.DeleteValue.remaining node values) with
      | mk r rh' =>
        rw [hc] at hce hf1 hf2
        simp only at hce hf1 hf2
        subst hce
        rw [hB3 node values e rh' hn hv hc]
        refine ⟨⟨e, rfl⟩, hf1, .NodeGetValue k.Node name :: .NodeValues k.Node :: calls, ?_, ?_⟩
        · show rh'.Calls = _
          rw [hf2]; simp
        · intro c hcm
          simp only [List.mem_cons] at hcm
          rcases hcm with h | h | h
          · subst h; rfl
          · subst h; rfl
          · exact hf3 c h

/-- C1 on the key `/foo` holding `bar = "x"` and `baz = "y"`: deleting `bar`
issues the one replace `[baz = "y"]` with its type and bytes unchanged, and
deleting the unknown `qux` fails without touching the store. -/
theorem DeleteValue_preserves_siblings_witness :
    (Key.DeleteValue memHivex (session barBazHive) { Node := 2 } "bar").2.Calls.filter
        Call.isReplace
      = [.NodeSetValues 2 [{ Typ := RegSZ, Key := "baz", Value := [121] }]] ∧
    (∃ e, (Key.DeleteValue memHivex (session barBazHive) { Node := 2 } "qux").1 = .error e) ∧
    (Key.DeleteValue memHivex (session barBazHive) { Node := 2 } "qux").2.Hive = barBazHive :=
  ⟨((DeleteValue_preserves_siblings memHivex (session barBazHive) { Node := 2 } "bar").1
      3 [] [4] (fun _ => "baz") (fun _ => RegSZ) (fun _ => [121]) (by rfl) (by rfl)
      (by decide) (by intro v hv; simp at hv; subst hv; rfl)
      (by intro v hv; simp at hv; subst hv; rfl)).2,
    ((DeleteValue_preserves_siblings memHivex (session barBazHive) { Node := 2 } "qux").2
      (Or.inl ⟨MemHive.ENOENT, by rfl⟩)).1,
    ((DeleteValue_preserves_siblings memHivex (session barBazHive) { Node := 2 } "qux").2
      (Or.inl ⟨MemHive.ENOENT, by rfl⟩)).2.1⟩

/-! ## `hiveValue` and `MakeValue` -/

/-- C11: a value is never persisted empty.  For every buffer and value the
triple built by `hiveValue` has at least one byte; when the buffer is empty the
triple is (`RegNone`, the name, one zero byte) whatever the type tag is; when it
is not, the triple is (the type tag, the name, the bytes of the buffer). -/
theorem hiveValue_never_empty (cr : Crunchio β) (v : Value β) :
    1 ≤ (v.hiveValue cr).Value.length ∧
    (cr.Bytes v.Buffer = [] →
      v.hiveValue cr = { Typ := RegNone, Key := v.Name, Value := [0] }) ∧
    (cr.Bytes v.Buffer ≠ [] →
      v.hiveValue cr = { Typ := v.Typ, Key := v.Name, Value := cr.Bytes v.Buffer }) := by
  refine ⟨?_, ?_, ?_⟩
  · unfold Value.hiveValue
    by_cases h : (cr.Bytes v.Buffer).length = 0
    · simp [h]
    · simp only [h, if_false]
      omega
  · intro h
    simp [Value.hiveValue, h]
  · intro h
    have h' : (cr.Bytes v.Buffer).length ≠ 0 := by
      simpa [List.length_eq_zero] using h
    simp [Value.hiveValue, h']

/-- C11 on the reference buffer: an empty value tagged `RegSZ` is pushed as
(`RegNone`, name, one zero byte), and a value holding the byte `120` is pushed
with its own tag and bytes. -/
theorem hiveValue_never_empty_witness :
    Value.hiveValue memBuffer
        { Buffer := [], Key := { Node := 2 }, Name := "bar", Typ := RegSZ, ready := true }
      = { Typ := RegNone, Key := "bar", Value := [0] } ∧
    Value.hiveValue memBuffer
        { Buffer := [120], Key := { Node := 2 }, Name := "bar", Typ := RegSZ, ready := true }
      = { Typ := RegSZ, Key := "bar", Value := [120] } :=
  ⟨(hiveValue_never_empty memBuffer
      { Buffer := [], Key := { Node := 2 }, Name := "bar", Typ := RegSZ, ready := true }).2.1
      (by rfl),
    (hiveValue_never_empty memBuffer
      { Buffer := [120], Key := { Node := 2 }, Name := "bar", Typ := RegSZ, ready := true }).2.2
      (by decide)⟩

/-- Looking a value up and decoding it only reads: the store state is as
before and no call added to the log is an upsert. -/
theorem Key.GetValue_frame (hx : Hivex σ) (cr : Crunchio β) (rh : Reghive σ) (k : Key)
    (name : String) :
    (k.GetValue hx cr rh name).2.Hive = rh.Hive ∧
    (k.GetValue hx cr rh name).2.Calls.filter Call.isUpsert
      = rh.Calls.filter Call.isUpsert := by
  simp only [Key.GetValue, Reghive.read, Reghive.DecodeValue, Reghive.DecodeKey]
  cases hx.NodeGetValue rh.Hive k.Node (if name = "@" then "" else name) with
  | error e => simp [List.filter_append, Call.isUpsert]
  | ok node =>
    simp only
    cases hx.NodeValueKey rh.Hive node with
    | error e => simp [List.filter_append, Call.isUpsert]
    | ok valueKey =>
      simp only
      cases hx.ValueValue rh.Hive node with
      | error e => simp [List.filter_append, Call.isUpsert]
      | ok tv => simp [List.filter_append, Call.isUpsert]

/-- The triple `MakeValue` pushes, when a new buffer is empty. -/
theorem Key.MakeValue_pushes (hx : Hivex σ) (cr : Crunchio β) (rh : Reghive σ) (k : Key)
    (name : String) (hnew : cr.Bytes cr.NewBuffer = []) :
    k.MakeValue hx cr rh name
      = (match ((match rh.write
            (.NodeSetValue k.Node
              { Typ := RegNone, Key := if name = "@" then "" else name, Value := [0] })
            (hx.NodeSetValue rh.Hive k.Node
              { Typ := RegNone, Key := if name = "@" then "" else name, Value := [0] }) with
          | (.error err, rh) => (.error err, rh)
          | (.ok _, rh) => rh.sync hx) : Res σ Unit) with
        | (.error err, rh) => (.error err, rh)
        | (.ok _, rh) => k.GetValue hx cr rh name) := by
  simp [Key.MakeValue, Value.SetName, Value.sync, newValue, Value.hiveValue, hnew]

/-- What `GetValue` returns, by what the store answers to its three reads: the
look-up of the name (with `"@"` read as the empty name), then the name and the
type and bytes of the value found. -/
theorem Key.GetValue_reads (hx : Hivex σ) (cr : Crunchio β) (rh : Reghive σ) (k : Key)
    (name : String) :
    (∀ e, hx.NodeGetValue rh.Hive k.Node (if name = "@" then "" else name) = .error e →
      k.GetValue hx cr rh name
        = (.error e,
            { rh with Calls := rh.Calls
                ++ [.NodeGetValue k.Node (if name = "@" then "" else name)] })) ∧
    (∀ vid e, hx.NodeGetValue rh.Hive k.Node (if name = "@" then "" else name) = .ok vid →
      hx.NodeValueKey rh.Hive vid = .error e →
      k.GetValue hx cr rh name
        = (.error e,
            { rh with Calls := rh.Calls
                ++ [.NodeGetValue k.Node (if name = "@" then "" else name),
                    .NodeValueKey vid] })) ∧
    (∀ vid key e, hx.NodeGetValue rh.Hive k.Node (if name = "@" then "" else name) = .ok vid →
      hx.NodeValueKey rh.Hive vid = .ok key →
      hx.ValueValue rh.Hive vid = .error e →
      k.GetValue hx cr rh name
        = (.error e,
            { rh with Calls := rh.Calls
                ++ [.NodeGetValue k.Node (if name = "@" then "" else name),
                    .NodeValueKey vid, .ValueValue vid] })) ∧
    (∀ vid key typ bytes,
      hx.NodeGetValue rh.Hive k.Node (if name = "@" then "" else name) = .ok vid →
      hx.NodeValueKey rh.Hive vid = .ok key →
      hx.ValueValue rh.Hive vid = .ok (typ, bytes) →
      k.GetValue hx cr rh name
        = (.ok { Buffer := cr.Write cr.NewBuffer bytes, Key := k,
                 Name := if key = "" then "@" else key, Typ := typ, ready := true },
            { rh with Calls := rh.Calls
                ++ [.NodeGetValue k.Node (if name = "@" then "" else name),
                    .NodeValueKey vid, .ValueValue vid] })) := by
  refine ⟨?_, ?_, ?_, ?_⟩
  · intro e h1
    simp [Key.GetValue, Reghive.read, h1]
  · intro vid e h1 h2
    simp [Key.GetValue, Reghive.read, Reghive.DecodeValue, Reghive.DecodeKey, h1, h2]
  · intro vid key e h1 h2 h3
    simp [Key.GetValue, Reghive.read, Reghive.DecodeValue, Reghive.DecodeKey, h1, h2, h3]
  · intro vid key typ bytes h1 h2 h3
    simp [Key.GetValue, Reghive.read, Reghive.DecodeValue, Reghive.DecodeKey, newValue, h1, h2,
      h3]

/-- C12: `MakeValue` persists an empty default-typed value under the given
name and returns it re-fetched from the store.  With a buffer collaborator
whose new buffer is empty, the first call `MakeValue` issues is the upsert of
(`RegNone`, the name with `"@"` replaced by the empty name, one zero byte), and
it is the only upsert it issues; a failed upsert or commit is returned as it
is.  When both succeed, `MakeValue` looks the name up in the committed store,
reads the name and then the type and bytes of the value found, and returns a
ready value built from exactly what these three reads answer (an empty stored
name shown as `"@"`); a failed read is returned as it is and ends the reads.
Whether the key already holds a value of that name is never asked. -/
theorem MakeValue_persists_default (hx : Hivex σ) (cr : Crunchio β) (rh : Reghive σ)
    (k : Key) (name : String) (hnew : cr.Bytes cr.NewBuffer = []) :
    (k.MakeValue hx cr rh name).2.Calls.filter Call.isUpsert
      = rh.Calls.filter Call.isUpsert ++ [.NodeSetValue k.Node
          { Typ := RegNone, Key := if name = "@" then "" else name, Value := [0] }] ∧
    (∀ e st1, hx.NodeSetValue rh.Hive k.Node
          { Typ := RegNone, Key := if name = "@" then "" else name, Value := [0] }
        = (.error e, st1) →
      k.MakeValue hx cr rh name
        = (.error e,
            { rh with Hive := st1,
                      Calls := rh.Calls ++ [.NodeSetValue k.Node
                        { Typ := RegNone, Key := if name = "@" then "" else name,
                          Value := [0] }] })) ∧
    (∀ n st1 e st2, hx.NodeSetValue rh.Hive k.Node
          { Typ := RegNone, Key := if name = "@" then "" else name, Value := [0] }
        = (.ok n, st1) →
      hx.Commit st1 = (.error e, st2) →
      k.MakeValue hx cr rh name
        = (.error e,
            { rh with Hive := st2,
                      Calls := rh.Calls ++ [.NodeSetValue k.Node
                        { Typ := RegNone, Key := if name = "@" then "" else name,
                          Value := [0] }, .Commit] })) ∧
    (∀ n st1 m st2 e, hx.NodeSetValue rh.Hive k.Node
          { Typ := RegNone, Key := if name = "@" then "" else name, Value := [0] }
        = (.ok n, st1) →
      hx.Commit st1 = (.ok m, st2) →
      hx.NodeGetValue st2 k.Node (if name = "@" then "" else name) = .error e →
      k.MakeValue hx cr rh name
        = (.error e,
            { rh with Hive := st2,
                      Calls := rh.Calls ++ [.NodeSetValue k.Node
                        { Typ := RegNone, Key := if name = "@" then "" else name,
                          Value := [0] }, .Commit,
                        .NodeGetValue k.Node (if name = "@" then "" else name)] })) ∧
    (∀ n st1 m st2 vid e, hx.NodeSetValue rh.Hive k.Node
          { Typ := RegNone, Key := if name = "@" then "" else name, Value := [0] }
        = (.ok n, st1) →
      hx.Commit st1 = (.ok m, st2) →
      hx.NodeGetValue st2 k.Node (if name = "@" then "" else name) = .ok vid →
      hx.NodeValueKey st2 vid = .error e →
      k.MakeValue hx cr rh name
        = (.error e,
            { rh with Hive := st2,
                      Calls := rh.Calls ++ [.NodeSetValue k.Node
                        { Typ := RegNone, Key := if name = "@" then "" else name,
                          Value := [0] }, .Commit,
                        .NodeGetValue k.Node (if name = "@" then "" else name),
                        .NodeValueKey vid] })) ∧
    (∀ n st1 m st2 vid key e, hx.NodeSetValue rh.Hive k.Node
          { Typ := RegNone, Key := if name = "@" then "" else name, Value := [0] }
        = (.ok n, st1) →
      hx.Commit st1 = (.ok m, st2) →
      hx.NodeGetValue st2 k.Node (if name = "@" then "" else name) = .ok vid →
      hx.NodeValueKey st2 vid = .ok key →
      hx.ValueValue st2 vid = .error e →
      k.MakeValue hx cr rh name
        = (.error e,
            { rh with Hive := st2,
                      Calls := rh.Calls ++ [.NodeSetValue k.Node
                        { Typ := RegNone, Key := if name = "@" then "" else name,
                          Value := [0] }, .Commit,
                        .NodeGetValue k.Node (if name = "@" then "" else name),
                        .NodeValueKey vid, .ValueValue vid] })) ∧
    (∀ n st1 m st2 vid key typ bytes, hx.NodeSetValue rh.Hive k.Node
          { Typ := RegNone, Key := if name = "@" then "" else name, Value := [0] }
        = (.ok n, st1) →
      hx.Commit st1 = (.ok m, st2) →
      hx.NodeGetValue st2 k.Node (if name = "@" then "" else name) = .ok vid →
      hx.NodeValueKey st2 vid = .ok key →
      hx.ValueValue st2 vid = .ok (typ, bytes) →
      k.MakeValue hx cr rh name
        = (.ok { Buffer := cr.Write cr.NewBuffer bytes, Key := k,
                 Name := if key = "" then "@" else key, Typ := typ, ready := true },
            { rh with Hive := st2,
                      Calls := rh.Calls ++ [.NodeSetValue k.Node
                        { Typ := RegNone, Key := if name = "@" then "" else name,
                          Value := [0] }, .Commit,
                        .NodeGetValue k.Node (if name = "@" then "" else name),
                        .NodeValueKey vid, .ValueValue vid] })) := by
  have hM := Key.MakeValue_pushes hx cr rh k name hnew
  have hok : ∀ n st1 m st2, hx.NodeSetValue rh.Hive k.Node
        { Typ := RegNone, Key := if name = "@" then "" else name, Value := [0] }
      = (.ok n, st1) →
      hx.Commit st1 = (.ok m, st2) →
      k.MakeValue hx cr rh name
        = k.GetValue hx cr
            { rh with Hive := st2,
                      Calls := rh.Calls ++ [.NodeSetValue k.Node
                        { Typ := RegNone, Key := if name = "@" then "" else name,
                          Value := [0] }, .Commit] }
            name := by
    intro n st1 m st2 h1 h2
    rw [hM]
    simp [Reghive.write, Reghive.sync, h1, h2]
  refine ⟨?_, ?_, ?_, ?_, ?_, ?_, ?_⟩
  · rw [hM]
    simp only [Reghive.write, Reghive.sync]
    cases hx.NodeSetValue rh.Hive k.Node
        { Typ := RegNone, Key := if name = "@" then "" else name, Value := [0] } with
    | mk r1 st1 =>
      cases r1 with
      | error e => simp [List.filter_append, Call.isUpsert]
      | ok n =>
        simp only
        cases hx.Commit st1 with
        | mk r2 st2 =>
          cases r2 with
          | error e => simp [List.filter_append, Call.isUpsert]
          | ok m =>
            simp only
            rw [(Key.GetValue_frame hx cr _ k name).2]
            simp [List.filter_append, Call.isUpsert]
  · intro e st1 h1
    rw [hM]
    simp [Reghive.write, h1]
  · intro n st1 e st2 h1 h2
    rw [hM]
    simp [Reghive.write, Reghive.sync, h1, h2]
  · intro n st1 m st2 e h1 h2 h3
    rw [hok n st1 m st2 h1 h2, (Key.GetValue_reads hx cr _ k name).1 e h3]
    simp
  · intro n st1 m st2 vid e h1 h2 h3 h4
    rw [hok n st1 m st2 h1 h2, (Key.GetValue_reads hx cr _ k name).2.1 vid e h3 h4]
    simp
  · intro n st1 m st2 vid key e h1 h2 h3 h4 h5
    rw [hok n st1 m st2 h1 h2, (Key.GetValue_reads hx cr _ k name).2.2.1 vid key e h3 h4 h5]
    simp
  · intro n st1 m st2 vid key typ bytes h1 h2 h3 h4 h5
    rw [hok n st1 m st2 h1 h2,
      (Key.GetValue_reads hx cr _ k name).2.2.2 vid key typ bytes h3 h4 h5]
    simp

/-- C12 on the key `/foo` holding `bar = "x"` and `baz = "y"`: `MakeValue("bar")`
issues the upsert (`RegNone`, `bar`, one zero byte), a commit and the three
reads of the re-fetch, in that order; the value it returns carries what the
store now holds under `bar`, the tag `RegNone` and the single zero byte; and in
the store the string that `bar` held is gone while `baz` is as before. -/
theorem MakeValue_persists_default_witness :
    (Key.MakeValue memHivex memBuffer (session barBazHive) { Node := 2 } "bar").1.map
        (fun v => (v.Name, v.Typ, v.Buffer, v.Key, v.ready))
      = .ok ("bar", RegNone, [0], { Node := 2 }, true) ∧
    (Key.MakeValue memHivex memBuffer (session barBazHive) { Node := 2 } "bar").2.Calls
      = [.NodeSetValue 2 { Typ := RegNone, Key := "bar", Value := [0] }, .Commit,
          .NodeGetValue 2 "bar", .NodeValueKey 5, .ValueValue 5] ∧
    ((Key.MakeValue memHivex memBuffer (session barBazHive) { Node := 2 } "bar").2.Hive.nodes.map
        (fun nd => nd.values.map (fun mv => mv.hv)))
      = [[], [{ Typ := RegNone, Key := "bar", Value := [0] },
              { Typ := RegSZ, Key := "baz", Value := [121] }]] := by
  have h := (MakeValue_persists_default memHivex memBuffer (session barBazHive) { Node := 2 }
    "bar" (by rfl)).2.2.2.2.2.2 0
    (memHivex.NodeSetValue barBazHive 2 { Typ := RegNone, Key := "bar", Value := [0] }).2 0
    (memHivex.NodeSetValue barBazHive 2 { Typ := RegNone, Key := "bar", Value := [0] }).2
    5 "bar" RegNone [0] (by rfl) (by rfl) (by rfl) (by rfl) (by rfl)
  rw [h]
  exact ⟨by rfl, by rfl, by rfl⟩

/-! ## BCD descriptors -/

theorem and_shiftRight (a b i : Nat) : (a &&& b) >>> i = (a >>> i) &&& (b >>> i) := by
  apply Nat.eq_of_testBit_eq
  intro j
  simp

theorem maskObject_field (w : Nat) (hw : w < 2 ^ 32) :
    (w &&& maskObject) >>> 28 = w / 2 ^ 28 := by
  have h15 : maskObject >>> 28 = 2 ^ 4 - 1 := by decide
  rw [and_shiftRight, h15, Nat.and_pow_two_sub_one_eq_mod, Nat.shiftRight_eq_div_pow]
  apply Nat.mod_eq_of_lt
  omega

theorem maskImage_field (w : Nat) :
    (w &&& maskImage) >>> 20 = w / 2 ^ 20 % 16 := by
  have h15 : maskImage >>> 20 = 2 ^ 4 - 1 := by decide
  rw [and_shiftRight, h15, Nat.and_pow_two_sub_one_eq_mod, Nat.shiftRight_eq_div_pow]

theorem maskApplication_field (w : Nat) : w &&& maskApplication = w % 2 ^ 20 := by
  have h : maskApplication = 2 ^ 20 - 1 := by decide
  rw [h, Nat.and_pow_two_sub_one_eq_mod]

/-- C15: `NewBCDDescType` decodes the bitfield exactly.  For four bytes
`b0 b1 b2 b3` and `w = b0 + 2^8 b1 + 2^16 b2 + 2^24 b3`, the result has
`ObjectType = w / 2^28`, `ImageType = w / 2^20 % 16`, `InheritType` equal to
`ImageType`, `ApplicationType = w % 2^20` and `Source` equal to the input. -/
theorem NewBCDDescType_fields (b0 b1 b2 b3 : Nat) (h0 : b0 < 256) (h1 : b1 < 256)
    (h2 : b2 < 256) (h3 : b3 < 256) :
    NewBCDDescType [b0, b1, b2, b3]
      = { Source := [b0, b1, b2, b3],
          ObjectType := (((b0 + 2 ^ 8 * b1 + 2 ^ 16 * b2 + 2 ^ 24 * b3) / 2 ^ 28 : Nat) : Int),
          ImageType := (((b0 + 2 ^ 8 * b1 + 2 ^ 16 * b2 + 2 ^ 24 * b3) / 2 ^ 20 % 16 : Nat) : Int),
          InheritType :=
            (((b0 + 2 ^ 8 * b1 + 2 ^ 16 * b2 + 2 ^ 24 * b3) / 2 ^ 20 % 16 : Nat) : Int),
          ApplicationType :=
            (((b0 + 2 ^ 8 * b1 + 2 ^ 16 * b2 + 2 ^ 24 * b3) % 2 ^ 20 : Nat) : Int) } ∧
    (NewBCDDescType [b0, b1, b2, b3]).InheritType
      = (NewBCDDescType [b0, b1, b2, b3]).ImageType := by
  have hw : readDWORD [b0, b1, b2, b3] = b0 + 2 ^ 8 * b1 + 2 ^ 16 * b2 + 2 ^ 24 * b3 := by
    simp only [readDWORD]
    rw [Nat.mod_eq_of_lt h0, Nat.mod_eq_of_lt h1, Nat.mod_eq_of_lt h2, Nat.mod_eq_of_lt h3]
    rw [Nat.mod_eq_of_lt (by omega)]
    omega
  have hlt : b0 + 2 ^ 8 * b1 + 2 ^ 16 * b2 + 2 ^ 24 * b3 < 2 ^ 32 := by omega
  refine ⟨?_, rfl⟩
  simp only [NewBCDDescType, hw, maskObject_field _ hlt, maskImage_field, maskApplication_field]

/-- C15 at the word `0x10200001`, bytes `01 00 20 10`: object-type 1,
image-type 2, inherit-type 2, application-type 1. -/
theorem NewBCDDescType_fields_witness :
    NewBCDDescType [0x01, 0x00, 0x20, 0x10]
      = { Source := [0x01, 0x00, 0x20, 0x10], ObjectType := 1, ImageType := 2,
          InheritType := 2, ApplicationType := 1 } :=
  (NewBCDDescType_fields 0x01 0x00 0x20 0x10 (by decide) (by decide) (by decide)
    (by decide)).1

/-- C16: `NewBCDDevice` accepts exactly 16 bytes.  It returns a device and no
error if and only if the input has length 16; for every other length it returns
`ERROR_BCDDEVICE_HEADER_SIZE`; and two inputs of the same length are both
accepted or both refused with that error. -/
theorem NewBCDDevice_exactly_16 (newBuffer : List Nat → β) (b : List Nat) :
    ((∃ dev, NewBCDDevice newBuffer b = .ok dev) ↔ b.length = 16) ∧
    (b.length ≠ 16 → NewBCDDevice newBuffer b = .error ERROR_BCDDEVICE_HEADER_SIZE) ∧
    (b.length = 16 → NewBCDDevice newBuffer b = .ok { Buffer := newBuffer b }) ∧
    (∀ b' : List Nat, b'.length = b.length →
      ((∃ dev, NewBCDDevice newBuffer b' = .ok dev) ↔ ∃ dev, NewBCDDevice newBuffer b = .ok dev) ∧
      (∀ e, NewBCDDevice newBuffer b' = .error e ↔ NewBCDDevice newBuffer b = .error e)) := by
  have hok : ∀ c : List Nat, c.length = 16 →
      NewBCDDevice newBuffer c = .ok { Buffer := newBuffer c } := by
    intro c hc
    simp [NewBCDDevice, hc]
  have herr : ∀ c : List Nat, c.length ≠ 16 →
      NewBCDDevice newBuffer c = .error ERROR_BCDDEVICE_HEADER_SIZE := by
    intro c hc
    simp [NewBCDDevice, hc]
  have hiff : ∀ c : List Nat, (∃ dev, NewBCDDevice newBuffer c = .ok dev) ↔ c.length = 16 := by
    intro c
    constructor
    · rintro ⟨dev, hdev⟩
      by_contra hc
      rw [herr c hc] at hdev
      cases hdev
    · intro hc
      exact ⟨_, hok c hc⟩
  refine ⟨hiff b, herr b, hok b, ?_⟩
  intro b' hlen
  constructor
  · rw [hiff b', hiff b, hlen]
  · intro e
    by_cases hb : b.length = 16
    · rw [hok b hb, hok b' (hlen.trans hb)]
      constructor <;> intro h <;> cases h
    · rw [herr b hb, herr b' (fun h => hb (hlen ▸ h))]

/-- C16 on the reference buffer: sixteen zero bytes are accepted, fifteen are
refused with `ERROR_BCDDEVICE_HEADER_SIZE`. -/
theorem NewBCDDevice_exactly_16_witness :
    NewBCDDevice (fun b => memBuffer.Write memBuffer.NewBuffer b) (List.replicate 15 0)
      = .error ERROR_BCDDEVICE_HEADER_SIZE ∧
    NewBCDDevice (fun b => memBuffer.Write memBuffer.NewBuffer b) (List.replicate 16 0)
      = .ok { Buffer := List.replicate 16 0 } :=
  ⟨(NewBCDDevice_exactly_16 (fun b => memBuffer.Write memBuffer.NewBuffer b)
      (List.replicate 15 0)).2.1 (by decide),
    (NewBCDDevice_exactly_16 (fun b => memBuffer.Write memBuffer.NewBuffer b)
      (List.replicate 16 0)).2.2.1 (by decide)⟩

/-! ## `DecodeUTF16` -/

theorem DecodeUTF16.flat_length (us : List (Nat × Nat)) :
    (DecodeUTF16.flat us).length = 2 * us.length := by
  induction us with
  | nil => rfl
  | cons p us ih =>
    simp only [DecodeUTF16.flat, List.flatMap_cons, List.length_append, List.length_cons,
      List.length_nil] at ih ⊢
    omega

theorem DecodeUTF16.flat_append (us vs : List (Nat × Nat)) :
    DecodeUTF16.flat (us ++ vs) = DecodeUTF16.flat us ++ DecodeUTF16.flat vs := by
  simp [DecodeUTF16.flat, List.flatMap_append]

theorem DecodeUTF16.flat_pairs (n : Nat) :
    ∀ b : List Nat, b.length = 2 * n → DecodeUTF16.flat (DecodeUTF16.pairs b) = b := by
  induction n with
  | zero =>
    intro b hb
    have : b = [] := List.length_eq_zero.1 (by omega)
    subst this
    rfl
  | succ n ih =>
    intro b hb
    match b, hb with
    | b0 :: b1 :: rest, hb =>
      have hr : rest.length = 2 * n := by
        simp only [List.length_cons] at hb
        omega
      have : DecodeUTF16.flat ((b0, b1) :: DecodeUTF16.pairs rest)
          = b0 :: b1 :: DecodeUTF16.flat (DecodeUTF16.pairs rest) := by
        simp [DecodeUTF16.flat]
      rw [DecodeUTF16.pairs, this, ih rest hr]
    | [_], hb => simp at hb; omega
    | [], hb => simp at hb

theorem DecodeUTF16.decode_flat (us : List (Nat × Nat)) :
    DecodeUTF16.decode (DecodeUTF16.flat us)
      = us.map (fun p => DecodeUTF16.rune (DecodeUTF16.unit p.1 p.2)) := by
  induction us with
  | nil => rfl
  | cons p us ih =>
    have : DecodeUTF16.flat (p :: us) = p.1 :: p.2 :: DecodeUTF16.flat us := by
      simp [DecodeUTF16.flat]
    rw [this, DecodeUTF16.decode, ih, List.map_cons]

theorem DecodeUTF16.takeWhile_snoc (us : List (Nat × Nat)) (p : Nat × Nat) :
    (us ++ [p]).takeWhile (fun q => !DecodeUTF16.isNull q)
      = if us.any DecodeUTF16.isNull then us.takeWhile (fun q => !DecodeUTF16.isNull q)
        else if DecodeUTF16.isNull p then us else us ++ [p] := by
  induction us with
  | nil =>
    by_cases hp : DecodeUTF16.isNull p <;> simp [List.takeWhile, hp]
  | cons q us ih =>
    by_cases hq : DecodeUTF16.isNull q
    · simp [List.takeWhile, hq]
    · have hq' : DecodeUTF16.isNull q = false := by simpa using hq
      have hL : (q :: us ++ [p]).takeWhile (fun q => !DecodeUTF16.isNull q)
          = q :: (us ++ [p]).takeWhile (fun q => !DecodeUTF16.isNull q) := by
        simp [List.takeWhile, hq']
      have hR : (q :: us).takeWhile (fun q => !DecodeUTF16.isNull q)
          = q :: us.takeWhile (fun q => !DecodeUTF16.isNull q) := by
        simp [List.takeWhile, hq']
      have hA : (q :: us).any DecodeUTF16.isNull = us.any DecodeUTF16.isNull := by
        simp [hq']
      rw [hL, hR, hA, ih]
      by_cases ha : us.any DecodeUTF16.isNull
      · rw [if_pos ha, if_pos ha]
      · rw [if_neg ha, if_neg ha]
        by_cases hp : DecodeUTF16.isNull p
        · rw [if_pos hp, if_pos hp]
        · rw [if_neg hp, if_neg hp]
          rfl

/-- The first loop of `DecodeUTF16` cuts at the first `0x0000` code unit among
those it visits: run over the pairs `us` of `flat (us ++ vs)`, it leaves the
pairs of `us` before the first null one, or everything if `us` has none. -/
theorem DecodeUTF16.trim_flat (us : List (Nat × Nat)) :
    ∀ vs : List (Nat × Nat),
      DecodeUTF16.trim us.length (DecodeUTF16.flat (us ++ vs))
        = DecodeUTF16.flat
            (if us.any DecodeUTF16.isNull
              then us.takeWhile (fun q => !DecodeUTF16.isNull q) else us ++ vs) := by
  induction us using List.reverseRecOn with
  | nil => intro vs; simp [DecodeUTF16.trim]
  | append_singleton us p ih =>
    intro vs
    have hlen : (us ++ [p]).length = us.length + 1 := by simp
    have hb : DecodeUTF16.flat (us ++ [p] ++ vs)
        = DecodeUTF16.flat us ++ (p.1 :: p.2 :: DecodeUTF16.flat vs) := by
      simp [DecodeUTF16.flat, List.flatMap_append]
    have hl := DecodeUTF16.flat_length us
    have h0 : (DecodeUTF16.flat us ++ (p.1 :: p.2 :: DecodeUTF16.flat vs))[2 * us.length]?
        = some p.1 := by
      rw [List.getElem?_append_right (by omega)]
      simp [hl]
    have h1 : (DecodeUTF16.flat us ++ (p.1 :: p.2 :: DecodeUTF16.flat vs))[2 * us.length + 1]?
        = some p.2 := by
      rw [List.getElem?_append_right (by omega)]
      simp [hl]
    have htake : (DecodeUTF16.flat us ++ (p.1 :: p.2 :: DecodeUTF16.flat vs)).take
        (2 * us.length) = DecodeUTF16.flat us := by
      rw [← hl]; simp
    rw [hlen, DecodeUTF16.trim, hb, h0, h1, htake, DecodeUTF16.takeWhile_snoc]
    by_cases hp : DecodeUTF16.isNull p
    · have hp' : p.1 = 0 ∧ p.2 = 0 := by simpa [DecodeUTF16.isNull] using hp
      have hc : (some p.1 = some 0 ∧ some p.2 = some 0) := by simp [hp'.1, hp'.2]
      rw [if_pos hc]
      have := ih []
      simp only [List.append_nil] at this
      rw [this]
      by_cases ha : us.any DecodeUTF16.isNull <;> simp [ha, hp]
    · have hc : ¬(some p.1 = some 0 ∧ some p.2 = some 0) := by
        simpa [DecodeUTF16.isNull] using hp
      rw [if_neg hc]
      have := ih (p :: vs)
      have hb' : DecodeUTF16.flat (us ++ p :: vs)
          = DecodeUTF16.flat us ++ (p.1 :: p.2 :: DecodeUTF16.flat vs) := by
        simp [DecodeUTF16.flat, List.flatMap_append]
      rw [hb'] at this
      rw [this]
      by_cases ha : us.any DecodeUTF16.isNull <;> simp [ha, hp]

/-- On an even-length input `DecodeUTF16` returns the text of the code units
before the first `0x0000`. -/
theorem DecodeUTF16_eq_cutAtNull (b : List Nat) (hb : b.length % 2 = 0) :
    DecodeUTF16 b = .ok (DecodeUTF16.cutAtNull b) := by
  have hn : b.length = 2 * (b.length / 2) := by omega
  have hfp := DecodeUTF16.flat_pairs (b.length / 2) b hn
  have hpl : (DecodeUTF16.pairs b).length = b.length / 2 := by
    have := DecodeUTF16.flat_length (DecodeUTF16.pairs b)
    rw [hfp] at this
    omega
  have ht := DecodeUTF16.trim_flat (DecodeUTF16.pairs b) []
  rw [List.append_nil, hfp, hpl] at ht
  have hcut : DecodeUTF16.trim (b.length / 2) b
      = DecodeUTF16.flat
          ((DecodeUTF16.pairs b).takeWhile (fun q => !DecodeUTF16.isNull q)) := by
    rw [ht]
    by_cases ha : (DecodeUTF16.pairs b).any DecodeUTF16.isNull
    · simp [ha]
    · rw [if_neg ha]
      congr 1
      symm
      rw [List.takeWhile_eq_self_iff]
      intro q hq
      simp only [List.any_eq_true, not_exists, not_and] at ha
      simpa using ha q hq
  unfold DecodeUTF16
  have hb' : ¬ (b.length % 2 ≠ 0) := by omega
  rw [if_neg hb']
  simp only [hcut, DecodeUTF16.decode_flat, DecodeUTF16.cutAtNull, DecodeUTF16.text]
  split
  · rename_i h0
    rw [DecodeUTF16.flat_length] at h0
    have : (DecodeUTF16.pairs b).takeWhile (fun q => !DecodeUTF16.isNull q) = [] :=
      List.length_eq_zero.1 (by omega)
    rw [this]
    rfl
  · rfl
theorem DecodeUTF16.takeWhile_of_no_null (us : List (Nat × Nat))
    (h : us.any DecodeUTF16.isNull = false) :
    us.takeWhile (fun q => !DecodeUTF16.isNull q) = us := by
  rw [List.takeWhile_eq_self_iff]
  intro q hq
  have := List.any_eq_false.1 h q hq
  simpa using this

/-- Cutting at the first null and stripping the trailing nulls give the same
code units when no null is left after stripping. -/
theorem DecodeUTF16.takeWhile_eq_rdropWhile (us : List (Nat × Nat)) :
    (us.rdropWhile DecodeUTF16.isNull).any DecodeUTF16.isNull = false →
    us.takeWhile (fun q => !DecodeUTF16.isNull q) = us.rdropWhile DecodeUTF16.isNull := by
  induction us using List.reverseRecOn with
  | nil => intro _; simp
  | append_singleton us p ih =>
    intro h
    rw [DecodeUTF16.takeWhile_snoc]
    by_cases hp : DecodeUTF16.isNull p
    · rw [List.rdropWhile_concat_pos _ _ _ hp] at h ⊢
      have hih := ih h
      by_cases ha : us.any DecodeUTF16.isNull
      · rw [if_pos ha, hih]
      · rw [if_neg ha, if_pos hp, ← hih]
        exact (DecodeUTF16.takeWhile_of_no_null us (by simpa using ha)).symm
    · rw [List.rdropWhile_concat_neg _ _ _ hp] at h ⊢
      have ha : ¬ us.any DecodeUTF16.isNull = true := by
        intro ha
        have : (us ++ [p]).any DecodeUTF16.isNull = true := by simp [ha]
        rw [h] at this
        cases this
      rw [if_neg ha, if_neg hp]

/-- C13: what `DecodeUTF16` does with `0x0000` code units.  On every even-length
input it returns the text of the code units before the FIRST `0x0000`, because
its first loop goes on after a non-zero unit and cuts again at every null
further left.  This is the text with only the trailing nulls stripped exactly
when no null is left inside after stripping; on `41 00 00 00 42 00` the code
returns `"A"`, whereas stripping the trailing nulls leaves `A`, a null and `B`.
The documented example `41 00 42 00 00 00` decodes to `"AB"`. -/
theorem DecodeUTF16_cuts_at_first_null :
    (∀ b : List Nat, b.length % 2 = 0 → DecodeUTF16 b = .ok (DecodeUTF16.cutAtNull b)) ∧
    (∀ b : List Nat, b.length % 2 = 0 →
      ((DecodeUTF16.pairs b).rdropWhile DecodeUTF16.isNull).any DecodeUTF16.isNull = false →
      DecodeUTF16 b = .ok (DecodeUTF16.stripTrailing b)) ∧
    DecodeUTF16 [0x41, 0x00, 0x00, 0x00, 0x42, 0x00] = .ok "A" ∧
    DecodeUTF16.stripTrailing [0x41, 0x00, 0x00, 0x00, 0x42, 0x00] = "A\x00B" ∧
    DecodeUTF16 [0x41, 0x00, 0x42, 0x00, 0x00, 0x00] = .ok "AB" := by
  refine ⟨DecodeUTF16_eq_cutAtNull, ?_, by rfl, by rfl, by rfl⟩
  intro b hb hno
  rw [DecodeUTF16_eq_cutAtNull b hb, DecodeUTF16.cutAtNull, DecodeUTF16.stripTrailing,
    DecodeUTF16.takeWhile_eq_rdropWhile _ hno]

/-- C13 at `41 00 00 00 42 00`: the code returns the text before the first
null, `"A"`, and that is not the text with the trailing nulls stripped. -/
theorem DecodeUTF16_cuts_at_first_null_witness :
    DecodeUTF16 [0x41, 0x00, 0x00, 0x00, 0x42, 0x00]
      = .ok (DecodeUTF16.cutAtNull [0x41, 0x00, 0x00, 0x00, 0x42, 0x00]) ∧
    DecodeUTF16.cutAtNull [0x41, 0x00, 0x00, 0x00, 0x42, 0x00]
      ≠ DecodeUTF16.stripTrailing [0x41, 0x00, 0x00, 0x00, 0x42, 0x00] :=
  ⟨DecodeUTF16_cuts_at_first_null.1 [0x41, 0x00, 0x00, 0x00, 0x42, 0x00] (by decide),
    by decide⟩

theorem DecodeUTF16.pairs_replicate (n : Nat) :
    DecodeUTF16.pairs (List.replicate (2 * n) 0) = List.replicate n (0, 0) := by
  induction n with
  | zero => rfl
  | succ n ih =>
    have : List.replicate (2 * (n + 1)) 0 = 0 :: 0 :: List.replicate (2 * n) 0 := by
      rw [show 2 * (n + 1) = 2 * n + 1 + 1 by omega, List.replicate_succ, List.replicate_succ]
    rw [this, DecodeUTF16.pairs, ih, List.replicate_succ]

/-- C14: `DecodeUTF16` returns an error if and only if its input has odd length;
the empty sequence and every sequence of `0x0000` code units decode to the
empty string without error. -/
theorem DecodeUTF16_error_iff_odd :
    (∀ b : List Nat, (∃ e, DecodeUTF16 b = .error e) ↔ b.length % 2 = 1) ∧
    (∀ b : List Nat, b.length % 2 = 1 →
      DecodeUTF16 b = .error (.fmt "Must have even length byte slice")) ∧
    DecodeUTF16 [] = .ok "" ∧
    (∀ n : Nat, DecodeUTF16 (List.replicate (2 * n) 0) = .ok "") := by
  have hodd : ∀ b : List Nat, b.length % 2 = 1 →
      DecodeUTF16 b = .error (.fmt "Must have even length byte slice") := by
    intro b hb
    have : b.length % 2 ≠ 0 := by omega
    simp [DecodeUTF16, hb]
  refine ⟨?_, hodd, by rfl, ?_⟩
  · intro b
    constructor
    · rintro ⟨e, he⟩
      by_contra hb
      have hb' : b.length % 2 = 0 := by omega
      rw [DecodeUTF16_eq_cutAtNull b hb'] at he
      cases he
    · intro hb
      exact ⟨_, hodd b hb⟩
  · intro n
    rw [DecodeUTF16_eq_cutAtNull _ (by simp)]
    simp only [DecodeUTF16.cutAtNull, DecodeUTF16.pairs_replicate]
    cases n with
    | zero => rfl
    | succ n =>
      rw [List.replicate_succ]
      rfl

/-- C14 at three inputs: one byte is refused, the empty sequence and two null
code units decode to the empty string. -/
theorem DecodeUTF16_error_iff_odd_witness :
    DecodeUTF16 [0x41] = .error (.fmt "Must have even length byte slice") ∧
    DecodeUTF16 [] = .ok "" ∧
    DecodeUTF16 [0, 0, 0, 0] = .ok "" :=
  ⟨DecodeUTF16_error_iff_odd.2.1 [0x41] (by decide), DecodeUTF16_error_iff_odd.2.2.1,
    DecodeUTF16_error_iff_odd.2.2.2 2⟩

/-! ## `PathSplit` never panics -/

theorem strings.splitChars_no_sep (sep : Char) (cs : List Char) :
    ∀ seg ∈ strings.splitChars sep cs, sep ∉ seg := by
  induction cs with
  | nil => intro seg h; simp [strings.splitChars] at h; subst h; simp
  | cons c cs ih =>
    intro seg h
    by_cases hc : c = sep
    · simp only [strings.splitChars, hc, if_true, List.mem_cons] at h
      rcases h with h | h
      · subst h; simp
      · exact ih seg h
    · cases hsp : strings.splitChars sep cs with
      | nil => exact absurd hsp (strings.splitChars_ne_nil sep cs)
      | cons s ss =>
        simp only [strings.splitChars, hc, if_false, hsp, List.mem_cons] at h
        rcases h with h | h
        · subst h
          have := ih s (by simp [hsp])
          intro hm
          rcases List.mem_cons.1 hm with h1 | h1
          · exact hc h1.symm
          · exact this h1
        · exact ih seg (by simp [hsp, h])

theorem strings.splitChars_eq_nil_singleton (sep : Char) (cs : List Char)
    (h : strings.splitChars sep cs = [[]]) : cs = [] := by
  cases cs with
  | nil => rfl
  | cons c cs =>
    exfalso
    by_cases hc : c = sep
    · simp only [strings.splitChars, hc, if_true, List.cons.injEq, true_and] at h
      exact strings.splitChars_ne_nil sep cs h
    · cases hsp : strings.splitChars sep cs with
      | nil => exact absurd hsp (strings.splitChars_ne_nil sep cs)
      | cons s ss => simp [strings.splitChars, hc, hsp] at h

theorem strings.splitChars_eq_two_nil (sep : Char) (cs : List Char)
    (h : strings.splitChars sep cs = [[], []]) : cs = [sep] := by
  cases cs with
  | nil => simp [strings.splitChars] at h
  | cons c cs =>
    by_cases hc : c = sep
    · simp only [strings.splitChars, hc, if_true, List.cons.injEq, true_and] at h
      rw [hc, strings.splitChars_eq_nil_singleton sep cs h]
    · exfalso
      cases hsp : strings.splitChars sep cs with
      | nil => exact absurd hsp (strings.splitChars_ne_nil sep cs)
      | cons s ss => simp [strings.splitChars, hc, hsp] at h

/-- Stripping one empty element at each end leaves something, unless the list
is empty, one empty element or two empty elements. -/
theorem strings.strip_ne_nil (keys : List String) (h0 : keys ≠ []) (h1 : keys ≠ [""])
    (h2 : keys ≠ ["", ""]) :
    (if (if keys.head? = some "" then keys.tail else keys).getLast? = some ""
      then (if keys.head? = some "" then keys.tail else keys).dropLast
      else (if keys.head? = some "" then keys.tail else keys)) ≠ [] := by
  match keys, h0, h1, h2 with
  | [x], _, h1, _ =>
    have hx : x ≠ "" := fun e => h1 (by rw [e])
    simp [hx]
  | x :: y :: rest, _, _, h2 =>
    by_cases hx : x = ""
    · subst hx
      cases rest with
      | nil =>
        have hy : y ≠ "" := fun e => h2 (by rw [e])
        simp [hy]
      | cons z rest =>
        simp only [List.head?_cons, if_true, List.tail_cons]
        split <;> simp
    · simp only [List.head?_cons, Option.some.injEq, hx, if_false]
      split <;> simp

theorem PathSplit_subset_split (lower : Char → Char) (key : String) :
    ∀ s ∈ PathSplit lower key, s ∈ strings.Split (strings.ToLower lower key) '/' := by
  intro s hs
  by_cases hk : key = "" ∨ key = "/"
  · simp [PathSplit, hk] at hs
  · rw [PathSplit_of_split lower key hk _ rfl] at hs
    have hmem1 : s ∈ (if (strings.Split (strings.ToLower lower key) '/').head? = some ""
        then (strings.Split (strings.ToLower lower key) '/').tail
        else strings.Split (strings.ToLower lower key) '/') := by
      by_cases hd : (if (strings.Split (strings.ToLower lower key) '/').head? = some ""
        then (strings.Split (strings.ToLower lower key) '/').tail
        else strings.Split (strings.ToLower lower key) '/').getLast? = some ""
      · rw [if_pos hd] at hs
        exact List.mem_of_mem_dropLast hs
      · rw [if_neg hd] at hs
        exact hs
    by_cases hc : (strings.Split (strings.ToLower lower key) '/').head? = some ""
    · rw [if_pos hc] at hmem1
      exact List.mem_of_mem_tail hmem1
    · rw [if_neg hc] at hmem1
      exact hmem1

theorem PathSplit.checked_eq (lower : Char → Char) (key : String) :
    PathSplit.checked lower key = some (PathSplit lower key) := by
  by_cases hk : key = "" ∨ key = "/"
  · simp [PathSplit.checked, PathSplit, hk]
  · have hkey : key ≠ "" := fun e => hk (Or.inl e)
    have hne : strings.Split (strings.ToLower lower key) '/' ≠ [] := by
      simp [strings.Split, strings.splitChars_ne_nil]
    have h0 : 0 < (strings.Split (strings.ToLower lower key) '/').length :=
      List.length_pos.2 hne
    have hne1 : (if (strings.Split (strings.ToLower lower key) '/')[0] = ""
        then (strings.Split (strings.ToLower lower key) '/').drop 1
        else strings.Split (strings.ToLower lower key) '/') ≠ [] := by
      split
      · rename_i hz
        intro hd
        have hlen : (strings.Split (strings.ToLower lower key) '/').length = 1 := by
          have := congrArg List.length hd
          simp at this
          omega
        have hlen' : (strings.splitChars '/' (strings.ToLower lower key).data).length = 1 := by
          simpa [strings.Split] using hlen
        obtain ⟨x, hx⟩ := List.length_eq_one.1 hlen'
        have hS : strings.Split (strings.ToLower lower key) '/' = [String.mk x] := by
          simp [strings.Split, hx]
        have hz' : String.mk x = "" := by
          simpa [hS] using hz
        have hx0 : x = [] := congrArg String.data hz'
        have hsplit : strings.splitChars '/' (strings.ToLower lower key).data = [[]] := by
          rw [hx, hx0]
        have := strings.splitChars_eq_nil_singleton _ _ hsplit
        simp only [strings.ToLower, List.map_eq_nil_iff] at this
        exact hkey (String.ext this)
      · exact hne
    have h1 : (if (strings.Split (strings.ToLower lower key) '/')[0] = ""
        then (strings.Split (strings.ToLower lower key) '/').drop 1
        else strings.Split (strings.ToLower lower key) '/').length - 1
        < (if (strings.Split (strings.ToLower lower key) '/')[0] = ""
        then (strings.Split (strings.ToLower lower key) '/').drop 1
        else strings.Split (strings.ToLower lower key) '/').length := by
      have := List.length_pos.2 hne1
      omega
    simp only [PathSplit.checked, PathSplit, if_neg hk, dif_pos h0, dif_pos h1,
      List.getElem?_eq_getElem h0, List.getElem?_eq_getElem h1, Option.some.injEq]
/-- The ASCII case table `Char.toLower` maps no other character to `'/'`. -/
theorem toLower_eq_slash (c : Char) (h : Char.toLower c = '/') : c = '/' := by
  by_cases hu : 65 ≤ c.toNat ∧ c.toNat ≤ 90
  · exfalso
    obtain ⟨h1, h2⟩ := hu
    have hc : c = Char.ofNat c.toNat := (Char.ofNat_toNat c).symm
    generalize c.toNat = n at h1 h2 hc
    subst hc
    interval_cases n <;> revert h <;> decide
  · have : Char.toLower c = c := by
      unfold Char.toLower
      simp only [ge_iff_le]
      rw [if_neg hu]
    rw [this] at h
    exact h

/-- C20: `PathSplit` is total and removes at most one empty segment at each end.
For every input the two index expressions are in range, so the checked function
returns what `PathSplit` returns; no returned segment contains `'/'`; and, for a
case table that maps no other character to `'/'`, every input other than `""`
and `"/"` yields at least one segment. -/
theorem PathSplit_total (lower : Char → Char) (key : String) :
    PathSplit.checked lower key = some (PathSplit lower key) ∧
    (∀ s ∈ PathSplit lower key, '/' ∉ s.data) ∧
    ((∀ c, lower c = '/' → c = '/') → key ≠ "" → key ≠ "/" →
      1 ≤ (PathSplit lower key).length) := by
  refine ⟨PathSplit.checked_eq lower key, ?_, ?_⟩
  · intro s hs
    have hmem := PathSplit_subset_split lower key s hs
    obtain ⟨seg, hseg, rfl⟩ := List.mem_map.1 hmem
    exact strings.splitChars_no_sep '/' _ seg hseg
  · intro hslash h0 h1
    have hk : ¬(key = "" ∨ key = "/") := by simp [h0, h1]
    rw [PathSplit_of_split lower key hk _ rfl]
    apply List.length_pos.2
    apply strings.strip_ne_nil
    · simp [strings.Split, strings.splitChars_ne_nil]
    · intro e
      have hsp : strings.splitChars '/' (strings.ToLower lower key).data = [[]] := by
        simp only [strings.Split] at e
        obtain ⟨x, hx⟩ := List.length_eq_one.1
          (show (strings.splitChars '/' (strings.ToLower lower key).data).length = 1 by
            have := congrArg List.length e
            simpa using this)
        rw [hx] at e ⊢
        simp only [List.map_cons, List.map_nil, List.cons.injEq, and_true] at e
        rw [show x = [] from congrArg String.data e]
      have := strings.splitChars_eq_nil_singleton _ _ hsp
      simp only [strings.ToLower, List.map_eq_nil_iff] at this
      exact h0 (String.ext this)
    · intro e
      have hsp : strings.splitChars '/' (strings.ToLower lower key).data = [[], []] := by
        simp only [strings.Split] at e
        obtain ⟨x, y, hxy⟩ := List.length_eq_two.1
          (show (strings.splitChars '/' (strings.ToLower lower key).data).length = 2 by
            have := congrArg List.length e
            simpa using this)
        rw [hxy] at e ⊢
        simp only [List.map_cons, List.map_nil, List.cons.injEq, and_true] at e
        rw [show x = [] from congrArg String.data e.1,
          show y = [] from congrArg String.data e.2]
      have := strings.splitChars_eq_two_nil _ _ hsp
      simp only [strings.ToLower] at this
      obtain ⟨c, hc, hlc⟩ : ∃ c, key.data = [c] ∧ lower c = '/' := by
        cases hd : key.data with
        | nil => simp [hd] at this
        | cons c cs =>
          cases cs with
          | nil => exact ⟨c, rfl, by simpa [hd] using this⟩
          | cons d ds => simp [hd] at this
      have hc' := hslash c hlc
      apply h1
      apply String.ext
      rw [hc, hc']

/-- C20 at `"//"` with the ASCII case table: both index expressions are in
range and the result is the one empty segment, not the root. -/
theorem PathSplit_total_witness :
    PathSplit.checked Char.toLower "//" = some [""] ∧
    1 ≤ (PathSplit Char.toLower "//").length :=
  ⟨(PathSplit_total Char.toLower "//").1,
    (PathSplit_total Char.toLower "//").2.2 toLower_eq_slash (by decide) (by decide)⟩

/-! ## `Open` and `Close` -/

theorem Open.find_some (heap : List (Session σ)) (path : String) (hives : List Nat)
    (ptr : Nat) (h : Open.find heap path hives = some ptr) :
    ptr ∈ hives ∧ (heap[ptr]?).map (fun s => s.Path) = some path := by
  induction hives with
  | nil => simp [Open.find] at h
  | cons q rest ih =>
    by_cases hq : (heap[q]?).map (fun s => s.Path) = some path
    · simp only [Open.find, hq, if_true, Option.some.injEq] at h
      subst h
      exact ⟨by simp, hq⟩
    · simp only [Open.find, hq, if_false] at h
      exact ⟨List.mem_cons_of_mem _ (ih h).1, (ih h).2⟩

theorem Open.find_none (heap : List (Session σ)) (path : String) (hives : List Nat)
    (h : Open.find heap path hives = none) :
    ∀ ptr ∈ hives, (heap[ptr]?).map (fun s => s.Path) ≠ some path := by
  induction hives with
  | nil => intro ptr hp; simp at hp
  | cons q rest ih =>
    by_cases hq : (heap[q]?).map (fun s => s.Path) = some path
    · simp [Open.find, hq] at h
    · simp only [Open.find, hq, if_false] at h
      intro ptr hp
      rcases List.mem_cons.1 hp with e | e
      · rw [e]; exact hq
      · exact ih h ptr e

theorem Open.find_isSome (heap : List (Session σ)) (path : String) (hives : List Nat)
    (ptr : Nat) (hp : ptr ∈ hives) (hpath : (heap[ptr]?).map (fun s => s.Path) = some path) :
    ∃ first, Open.find heap path hives = some first := by
  cases h : Open.find heap path hives with
  | some first => exact ⟨first, rfl⟩
  | none => exact absurd hpath (Open.find_none heap path hives h ptr hp)

/-- When no two registered sessions share a path, the loop of `Open` finds the
registered session that has the path. -/
theorem Open.find_of_nodup (heap : List (Session σ)) (path : String) (hives : List Nat)
    (hnd : (hives.map (fun q => (heap[q]?).map (fun s => s.Path))).Nodup)
    (ptr : Nat) (hp : ptr ∈ hives) (hpath : (heap[ptr]?).map (fun s => s.Path) = some path) :
    Open.find heap path hives = some ptr := by
  obtain ⟨first, hf⟩ := Open.find_isSome heap path hives ptr hp hpath
  obtain ⟨hf1, hf2⟩ := Open.find_some heap path hives first hf
  have := List.inj_on_of_nodup_map hnd hf1 hp (hf2.trans hpath.symm)
  rw [hf, this]

/-- What `Open` does when the path is not registered and the store opens. -/
theorem Open_fresh (ho : HivexHandle σ) (p : Process σ) (path : String) (hive : σ)
    (root : Int) (hfind : Open.find p.heap path p.hives = none)
    (hnew : ho.NewHivex path = .ok hive) (hroot : ho.Root hive = .ok root) :
    Open ho p path
      = (.ok p.heap.length,
          { heap := p.heap ++ [{ Hive := some hive, Path := path, Root := some { Node := root } }],
            hives := p.hives ++ [p.heap.length],
            opened := p.opened ++ [path] }) := by
  simp [Open, hfind, hnew, hroot, Reghive.DecodeKey]

/-- What `Open` does to the heap and the registry otherwise: nothing. -/
theorem Open_cases (ho : HivexHandle σ) (p : Process σ) (path : String) :
    ((Open ho p path).2.heap = p.heap ∧ (Open ho p path).2.hives = p.hives) ∨
    (∃ hive root, Open.find p.heap path p.hives = none ∧ ho.NewHivex path = .ok hive ∧
      ho.Root hive = .ok root) := by
  cases hfind : Open.find p.heap path p.hives with
  | some ptr => left; simp [Open, hfind]
  | none =>
    cases hnew : ho.NewHivex path with
    | error e => left; simp [Open, hfind, hnew]
    | ok hive =>
      cases hroot : ho.Root hive with
      | error e => left; simp [Open, hfind, hnew, hroot]
      | ok root => right; exact ⟨hive, root, rfl, rfl, hroot⟩

/-- The registry invariant survives `Open`, whatever it returns. -/
theorem Open_keeps_invariant (ho : HivexHandle σ) (p : Process σ) (path : String)
    (h : p.OnePerPath) : (Open ho p path).2.OnePerPath := by
  rcases Open_cases ho p path with ⟨h1, h2⟩ | ⟨hive, root, hfind, hnew, hroot⟩
  · unfold Process.OnePerPath Process.pathOf at h ⊢
    rw [h1, h2]
    exact h
  · rw [Open_fresh ho p path hive root hfind hnew hroot]
    obtain ⟨hwf, hnd⟩ := h
    constructor
    · intro ptr hptr
      simp only [List.mem_append, List.mem_singleton] at hptr
      simp only [List.length_append, List.length_singleton]
      rcases hptr with hptr | hptr
      · have := hwf ptr hptr; omega
      · omega
    · have hold : ∀ ptr ∈ p.hives,
          Process.pathOf
            { heap := p.heap ++ [{ Hive := some hive, Path := path,
                                   Root := some { Node := root } }],
              hives := p.hives ++ [p.heap.length],
              opened := p.opened ++ [path] } ptr = p.pathOf ptr := by
        intro ptr hptr
        simp only [Process.pathOf]
        rw [List.getElem?_append_left (hwf ptr hptr)]
      have hnewp : Process.pathOf
            { heap := p.heap ++ [{ Hive := some hive, Path := path,
                                   Root := some { Node := root } }],
              hives := p.hives ++ [p.heap.length],
              opened := p.opened ++ [path] } p.heap.length = some path := by
        simp [Process.pathOf]
      simp only [List.map_append, List.map_cons, List.map_nil, hnewp]
      rw [List.map_congr_left hold]
      rw [List.nodup_append]
      refine ⟨hnd, by simp, ?_⟩
      intro a ha hb
      simp only [List.mem_singleton] at hb
      subst hb
      obtain ⟨ptr, hptr, hpp⟩ := List.mem_map.1 ha
      exact Open.find_none p.heap path p.hives hfind ptr hptr hpp
theorem Open_registered (ho : HivexHandle σ) (p : Process σ) (path : String) (ptr : Nat)
    (p' : Process σ) (h : Open ho p path = (.ok ptr, p')) :
    ptr ∈ p'.hives ∧ p'.pathOf ptr = some path := by
  cases hfind : Open.find p.heap path p.hives with
  | some first =>
    have hO : Open ho p path = (.ok first, p) := by simp [Open, hfind]
    have hfs := Open.find_some p.heap path p.hives first hfind
    rw [hO] at h
    cases h
    exact hfs
  | none =>
    cases hnew : ho.NewHivex path with
    | error e =>
      have hO : Open ho p path = (.error e, { p with opened := p.opened ++ [path] }) := by
        simp [Open, hfind, hnew]
      rw [hO] at h
      cases h
    | ok hive =>
      cases hroot : ho.Root hive with
      | error e =>
        have hO : Open ho p path = (.error e, { p with opened := p.opened ++ [path] }) := by
          simp [Open, hfind, hnew, hroot]
        rw [hO] at h
        cases h
      | ok root =>
        rw [Open_fresh ho p path hive root hfind hnew hroot] at h
        cases h
        exact ⟨by simp, by simp [Process.pathOf]⟩

theorem Process.opens_keeps_invariant (ho : HivexHandle σ) (paths : List String) :
    ∀ p : Process σ, p.OnePerPath → (Process.opens ho p paths).OnePerPath := by
  induction paths with
  | nil => intro p h; exact h
  | cons path rest ih =>
    intro p h
    exact ih _ (Open_keeps_invariant ho p path h)

/-- C17: `Open` is idempotent per path.  If a session with the path is
registered, `Open` returns a registered session with that path and the whole
state is as before: the registry is unchanged and `hivex.NewHivex` is not called
again; when no two registered sessions share a path it is that very session,
and a second `Open` after a successful one returns the same session and changes
nothing.  `Open` keeps the registry at one session per path, so after any
sequence of `Open` calls from program start the registry holds at most one
session per path. -/
theorem Open_idempotent (ho : HivexHandle σ) (p : Process σ) (path : String) :
    (∀ ptr ∈ p.hives, p.pathOf ptr = some path →
      ∃ first ∈ p.hives, p.pathOf first = some path ∧ Open ho p path = (.ok first, p)) ∧
    (p.OnePerPath → ∀ ptr ∈ p.hives, p.pathOf ptr = some path →
      Open ho p path = (.ok ptr, p)) ∧
    (p.OnePerPath → ∀ ptr p', Open ho p path = (.ok ptr, p') →
      Open ho p' path = (.ok ptr, p')) ∧
    (p.OnePerPath → (Open ho p path).2.OnePerPath) ∧
    (∀ paths, (Process.opens ho (Process.init : Process σ) paths).OnePerPath) := by
  have hsame : ∀ q : Process σ, q.OnePerPath → ∀ ptr ∈ q.hives, q.pathOf ptr = some path →
      Open ho q path = (.ok ptr, q) := by
    intro q hq ptr hptr hpath
    have := Open.find_of_nodup q.heap path q.hives hq.2 ptr hptr hpath
    simp [Open, this]
  refine ⟨?_, hsame p, ?_, Open_keeps_invariant ho p path, ?_⟩
  · intro ptr hptr hpath
    obtain ⟨first, hf⟩ := Open.find_isSome p.heap path p.hives ptr hptr hpath
    obtain ⟨hf1, hf2⟩ := Open.find_some p.heap path p.hives first hf
    exact ⟨first, hf1, hf2, by simp [Open, hf]⟩
  · intro hinv ptr p' hO
    have hp' : p'.OnePerPath := by
      have := Open_keeps_invariant ho p path hinv
      rw [hO] at this
      exact this
    obtain ⟨h1, h2⟩ := Open_registered ho p path ptr p' hO
    exact hsame p' hp' ptr h1 h2
  · intro paths
    apply Process.opens_keeps_invariant
    exact ⟨by intro ptr h; simp [Process.init] at h, by simp [Process.init]⟩

/-- C17 on the reference store: after `Open("a.hive")` and `Open("b.hive")` from
program start, `Open("a.hive")` returns the first session again and the state,
with its two registered sessions and two store openings, is unchanged. -/
theorem Open_idempotent_witness :
    Open memHandle (Process.opens memHandle Process.init ["a.hive", "b.hive"]) "a.hive"
      = (.ok 0, Process.opens memHandle Process.init ["a.hive", "b.hive"]) ∧
    (Process.opens memHandle Process.init ["a.hive", "b.hive"]).hives = [0, 1] ∧
    (Process.opens memHandle Process.init ["a.hive", "b.hive", "a.hive"]).opened
      = ["a.hive", "b.hive"] :=
  ⟨(Open_idempotent memHandle (Process.opens memHandle Process.init ["a.hive", "b.hive"])
      "a.hive").2.1
      ((Open_idempotent memHandle (Process.init : Process MemHive) "a.hive").2.2.2.2
        ["a.hive", "b.hive"])
      0 (by decide) (by rfl),
    by rfl, by rfl⟩

theorem Close.index_none (heap : List (Session σ)) (path : String) (hives : List Nat)
    (h : ∀ ptr ∈ hives, (heap[ptr]?).map (fun s => s.Path) ≠ some path) :
    ∀ i : Nat, Close.index heap path hives i = -1 := by
  induction hives with
  | nil => intro i; rfl
  | cons q rest ih =>
    intro i
    have hq := h q (by simp)
    simp only [Close.index, hq, if_false]
    exact ih (fun ptr hp => h ptr (List.mem_cons_of_mem _ hp)) (i + 1)

/-- C18: what `Close` does to the registry.  For a registered open session with
a non-empty path, in a registry with one session per path, whose store closes
without error, `Close` succeeds and clears the struct, and the registry is
exactly as before: the session is still in it.  `Close` empties `rh.Path`
before it searches `hives` for the saved path, and `hives` holds pointers to
the same struct, so the search never finds the session being closed. -/
theorem Close_leaves_session_registered (ho : HivexHandle σ) (p : Process σ) (rh : Nat)
    (s : Session σ) (hive : σ)
    (hinv : p.OnePerPath) (hreg : rh ∈ p.hives)
    (hcell : p.heap[rh]? = some s) (hopen : s.Hive = some hive)
    (hpath : s.Path ≠ "") (hclose : ho.Close hive = none) :
    Close ho p rh
      = some (.ok (),
          { p with heap := p.heap.set rh { Hive := none, Path := "", Root := none } }) ∧
    (∀ r p', Close ho p rh = some (r, p') → p'.hives = p.hives ∧ rh ∈ p'.hives ∧
      p'.pathOf rh = some "") := by
  have hlt : rh < p.heap.length := hinv.1 rh hreg
  have hidx : Close.index (p.heap.set rh { Hive := none, Path := "", Root := none }) s.Path
      p.hives 0 = -1 := by
    apply Close.index_none
    intro q hq hqp
    by_cases hqr : q = rh
    · subst hqr
      rw [List.getElem?_set_self hlt] at hqp
      simp only [Option.map_some', Option.some.injEq] at hqp
      exact hpath hqp.symm
    · rw [List.getElem?_set_ne (fun e => hqr e.symm)] at hqp
      have hrp : p.pathOf rh = some s.Path := by simp [Process.pathOf, hcell]
      have := List.inj_on_of_nodup_map hinv.2 hq hreg (hqp.trans hrp.symm)
      exact hqr this
  have hC : Close ho p rh
      = some (.ok (),
          { p with heap := p.heap.set rh { Hive := none, Path := "", Root := none } }) := by
    simp only [Close, hcell, hopen, hclose, hidx]
    simp
  refine ⟨hC, ?_⟩
  intro r p' h
  rw [hC] at h
  cases h
  refine ⟨rfl, hreg, ?_⟩
  simp [Process.pathOf, List.getElem?_set_self hlt]

/-- C18 on the reference store: after `Open("a.hive")` from program start,
`Close` on the session returned leaves it registered with an empty path, and
the next `Open("a.hive")` opens the store a second time and registers a second
session beside it. -/
theorem Close_leaves_session_registered_witness :
    (Close memHandle (Open memHandle Process.init "a.hive").2 0).map
        (fun r => (r.2.hives, r.2.heap.map (fun s => s.Path)))
      = some ([0], [""]) ∧
    (Close memHandle (Open memHandle Process.init "a.hive").2 0).map
        (fun r => ((Open memHandle r.2 "a.hive").1, (Open memHandle r.2 "a.hive").2.hives,
          (Open memHandle r.2 "a.hive").2.opened))
      = some (.ok 1, [0, 1], ["a.hive", "a.hive"]) := by
  have h := (Close_leaves_session_registered memHandle
    (Open memHandle Process.init "a.hive").2 0
    { Hive := some emptyHive, Path := "a.hive", Root := some { Node := 1 } } emptyHive
    ((Open_keeps_invariant memHandle Process.init "a.hive"
      ⟨by intro ptr h; simp [Process.init] at h, by simp [Process.init]⟩))
    (by decide) (by rfl) (by rfl) (by decide) (by rfl)).1
  rw [h]
  exact ⟨by rfl, by rfl⟩

/-! ## Round trip through `DecodeUTF16` -/

end reghive
